import Mathlib

/-!
# Verification of the sbml-rust-generator symbolic compilation pipeline

This file gives a shallow embedding of the core symbolic-to-code compilation
pipeline of the repository (expression AST, ODE system builder, sparse Jacobian
builder, CSE safety post-pass, dependency analyzer / rule classifier, the
assignment-rule processor's strict topological sort, the Rust code printer, and
the expression-parser dispatch), and proves or refutes the frozen claims about
it.

The underlying symbolic-algebra engine (sympy) is an external collaborator of
the repository; where an embedded definition models such an external capability
(automatic differentiation, float formatting, the inherited printer methods),
its doc comment says so.  Everything else is translated directly from the
repository sources.
-/

namespace WasmPK

/-- The algebraic intermediate representation: the fragment of the external
symbolic engine's expression type that the repository's pipeline manipulates.
`intE` is an integer literal (`sympy.Integer`), `floatE` a float literal
(`sympy.Float`, modelled by a rational), `sym` a named symbol, `ne` the
`Ne` relation, `boolT` the boolean constant `True`, and `piecewise` an ordered
list of (value, condition) branches. -/
inductive Expr where
  | intE : Int → Expr
  | floatE : ℚ → Expr
  | sym : String → Expr
  | add : Expr → Expr → Expr
  | mul : Expr → Expr → Expr
  | pow : Expr → Expr → Expr
  | log : Expr → Expr
  | ne : Expr → Expr → Expr
  | boolT : Expr
  | piecewise : List (Expr × Expr) → Expr
  deriving Repr

mutual

/-- Boolean structural equality on `Expr` (needed because automatic
`DecidableEq` derivation does not handle the nested list of branches). -/
def Expr.beq : Expr → Expr → Bool
  | .intE a, .intE b => a == b
  | .floatE a, .floatE b => a == b
  | .sym a, .sym b => a == b
  | .add a b, .add c d => a.beq c && b.beq d
  | .mul a b, .mul c d => a.beq c && b.beq d
  | .pow a b, .pow c d => a.beq c && b.beq d
  | .log a, .log b => a.beq b
  | .ne a b, .ne c d => a.beq c && b.beq d
  | .boolT, .boolT => true
  | .piecewise a, .piecewise b => Expr.beqBrs a b
  | _, _ => false

/-- Structural equality on branch lists. -/
def Expr.beqBrs : List (Expr × Expr) → List (Expr × Expr) → Bool
  | [], [] => true
  | (v, c) :: r, (w, d) :: s => v.beq w && c.beq d && Expr.beqBrs r s
  | _, _ => false

end

mutual

/-- Preorder traversal of an expression tree: the node itself followed by all
of its subexpressions, mirroring `sympy.preorder_traversal` on the embedded
fragment (branch values and branch conditions are both visited). -/
def subexprs : Expr → List Expr
  | .add a b => .add a b :: (subexprs a ++ subexprs b)
  | .mul a b => .mul a b :: (subexprs a ++ subexprs b)
  | .pow a b => .pow a b :: (subexprs a ++ subexprs b)
  | .log a => .log a :: subexprs a
  | .ne a b => .ne a b :: (subexprs a ++ subexprs b)
  | .piecewise brs => .piecewise brs :: subexprsBrs brs
  | e => [e]

/-- Preorder traversal of a branch list. -/
def subexprsBrs : List (Expr × Expr) → List Expr
  | [] => []
  | (v, c) :: rest => subexprs v ++ subexprs c ++ subexprsBrs rest

end

mutual

/-- The free symbols of an expression (`expr.free_symbols`), as the list of
symbol names in traversal order (the source consumes them as a set, so only
membership matters). -/
def freeSyms : Expr → List String
  | .sym s => [s]
  | .add a b => freeSyms a ++ freeSyms b
  | .mul a b => freeSyms a ++ freeSyms b
  | .pow a b => freeSyms a ++ freeSyms b
  | .log a => freeSyms a
  | .ne a b => freeSyms a ++ freeSyms b
  | .piecewise brs => freeSymsBrs brs
  | _ => []

/-- Free symbols of a branch list (values and conditions). -/
def freeSymsBrs : List (Expr × Expr) → List String
  | [] => []
  | (v, c) :: rest => freeSyms v ++ freeSyms c ++ freeSymsBrs rest

end

mutual

/-- `Expr.beq` decides structural equality (foundational fact about the data
model, packaged as a definition so the decidability instance below can be set
up before the operations on `Expr` are defined). -/
def Expr.beq_iff : ∀ a b : Expr, Expr.beq a b = true ↔ a = b
  | .intE _, b => by cases b <;> simp [Expr.beq]
  | .floatE _, b => by cases b <;> simp [Expr.beq]
  | .sym _, b => by cases b <;> simp [Expr.beq]
  | .add a b, c => by
      cases c <;> simp [Expr.beq, Expr.beq_iff a, Expr.beq_iff b]
  | .mul a b, c => by
      cases c <;> simp [Expr.beq, Expr.beq_iff a, Expr.beq_iff b]
  | .pow a b, c => by
      cases c <;> simp [Expr.beq, Expr.beq_iff a, Expr.beq_iff b]
  | .log a, c => by
      cases c <;> simp [Expr.beq, Expr.beq_iff a]
  | .ne a b, c => by
      cases c <;> simp [Expr.beq, Expr.beq_iff a, Expr.beq_iff b]
  | .boolT, c => by cases c <;> simp [Expr.beq]
  | .piecewise a, c => by
      cases c <;> simp [Expr.beq, Expr.beqBrs_iff a]

/-- `Expr.beqBrs` decides structural equality of branch lists. -/
def Expr.beqBrs_iff : ∀ a b : List (Expr × Expr), Expr.beqBrs a b = true ↔ a = b
  | [], b => by cases b <;> simp [Expr.beqBrs]
  | (v, c) :: r, b => by
      cases b with
      | nil => simp [Expr.beqBrs]
      | cons hd tl =>
        obtain ⟨w, d⟩ := hd
        simp [Expr.beqBrs, Expr.beq_iff v, Expr.beq_iff c, Expr.beqBrs_iff r]

end

instance : DecidableEq Expr := fun a b => decidable_of_iff _ (Expr.beq_iff a b)

/-- Evaluation of the arithmetic fragment over the rationals: the semantic
reference used to state "symbolic equality" claims about the ODE builder.
Node kinds outside the arithmetic fragment (relations, piecewise, logs with
symbolic content) are not interpreted and evaluate to the junk value `0`;
every claim stated through `evalE` only compares combinations of the same
subterms, so the junk value never influences a stated equality. -/
def evalE (v : String → ℚ) : Expr → ℚ
  | .intE n => (n : ℚ)
  | .floatE q => q
  | .sym s => v s
  | .add a b => evalE v a + evalE v b
  | .mul a b => evalE v a * evalE v b
  | .pow b (.intE n) => (evalE v b) ^ n
  | .pow _ _ => 0
  | .log _ => 0
  | .ne _ _ => 0
  | .boolT => 0
  | .piecewise _ => 0

/-! ## Symbolic optimizer: the numeric-safety post-pass
(`src/symbolic/optimizer.py`, `SymbolicOptimizer`). -/

/-- Is the expression the literal zero (`val == 0` in the source compares
against `0`, `sympy.Float(0)` and `sympy.Integer(0)`)? -/
def isZeroLit : Expr → Bool
  | .intE n => n == 0
  | .floatE q => q == 0
  | _ => false

/-- `SymbolicOptimizer._expr_can_be_zero`: the expression is or contains a
`Piecewise` with a branch valued exactly zero. -/
def exprCanBeZero (e : Expr) : Bool :=
  (subexprs e).any fun x =>
    match x with
    | .piecewise brs => brs.any fun vc => isZeroLit vc.1
    | _ => false

/-- `SymbolicOptimizer._contains_zero_symbol`: the expression contains a
symbol from the zero-capable set. -/
def containsZeroSymbol (zs : List String) (e : Expr) : Bool :=
  (subexprs e).any fun x =>
    match x with
    | .sym s => decide (s ∈ zs)
    | _ => false

/-- `exp.is_number and exp < 0`: a literal negative number. -/
def isNegNum : Expr → Bool
  | .intE n => n < 0
  | .floatE q => q < 0
  | _ => false

/-- `is_unsafe_base` from `_make_division_safe` (the same three checks are
used by the detection loop in `_ensure_safe_divisions`): the base is a
zero-capable symbol, contains a zero-valued `Piecewise` branch, or contains a
zero-capable symbol. -/
def unsafeBase (zs : List String) (b : Expr) : Bool :=
  (match b with
   | .sym s => decide (s ∈ zs)
   | _ => false)
  || exprCanBeZero b
  || containsZeroSymbol zs b

/-- The detection loop of `_ensure_safe_divisions`: does the expression
contain a `Pow` with a literal negative exponent and an unsafe base? -/
def hasUnsafePow (zs : List String) (e : Expr) : Bool :=
  (subexprs e).any fun x =>
    match x with
    | .pow b ex => isNegNum ex && unsafeBase zs b
    | _ => false

/-- The sentinel value `sympy.Float(1e10)` substituted when a guarded base is
zero. -/
def sentinel : ℚ := 10000000000

/-- `safe_pow` from `_make_division_safe`: wrap an unsafe negative power in
`Piecewise((base^exp, Ne(base, 0)), (1e10, True))`; leave a safe power
unchanged. -/
def safePow (zs : List String) (b e : Expr) : Expr :=
  if isNegNum e && unsafeBase zs b then
    .piecewise [(.pow b e, .ne b (.intE 0)), (.floatE sentinel, .boolT)]
  else .pow b e

mutual

/-- The `expr.replace(lambda e: isinstance(e, Pow) and e.exp.is_number and
e.exp < 0, lambda e: safe_pow(e.base, e.exp))` call of
`_make_division_safe`: `sympy.Basic.replace` rewrites bottom-up, rebuilding
children before querying the rebuilt node. -/
def replacePows (zs : List String) : Expr → Expr
  | .add a b => .add (replacePows zs a) (replacePows zs b)
  | .mul a b => .mul (replacePows zs a) (replacePows zs b)
  | .pow b e =>
      let b2 := replacePows zs b
      let e2 := replacePows zs e
      if isNegNum e2 then safePow zs b2 e2 else .pow b2 e2
  | .log a => .log (replacePows zs a)
  | .ne a b => .ne (replacePows zs a) (replacePows zs b)
  | .piecewise brs => .piecewise (replacePowsBrs zs brs)
  | e => e

/-- Bottom-up replacement inside a branch list. -/
def replacePowsBrs (zs : List String) : List (Expr × Expr) → List (Expr × Expr)
  | [] => []
  | (v, c) :: rest => (replacePows zs v, replacePows zs c) :: replacePowsBrs zs rest

end

/-- `SymbolicOptimizer._make_division_safe`: if the expression is itself a
`Pow` with a literal negative exponent and an unsafe base it is wrapped
directly (leaving its base unprocessed); otherwise every negative-exponent
`Pow` is replaced bottom-up by `safe_pow`. -/
def make_division_safe (zs : List String) (e : Expr) : Expr :=
  match e with
  | .pow b ex =>
      if isNegNum ex && unsafeBase zs b then safePow zs b ex
      else replacePows zs (.pow b ex)
  | _ => replacePows zs e

/-- `SymbolicOptimizer._ensure_safe_divisions`: walk the CSE replacement list
in order, accumulate the set of zero-capable temporaries, and rewrite every
replacement whose expression contains an unsafe negative power. -/
def ensure_safe_divisions_go (zs : List String) :
    List (String × Expr) → List (String × Expr)
  | [] => []
  | (s, e) :: rest =>
      let zs2 := if exprCanBeZero e then s :: zs else zs
      let e2 := if hasUnsafePow zs2 e then make_division_safe zs2 e else e
      (s, e2) :: ensure_safe_divisions_go zs2 rest

/-- Entry point of the safety post-pass. -/
def ensure_safe_divisions (reps : List (String × Expr)) : List (String × Expr) :=
  ensure_safe_divisions_go [] reps

/-- The zero-capable symbol set accumulated by `ensure_safe_divisions` after
processing a prefix of the replacement list. -/
def esdZs (zs : List String) : List (String × Expr) → List String
  | [] => zs
  | (s, e) :: rest => esdZs (if exprCanBeZero e then s :: zs else zs) rest

mutual

/-- Formalization of the claim's safety property: every `Pow` with a literal
negative exponent and an unsafe base occurs only as the guarded power of a
conditional `Piecewise((base^exp, Ne(base, 0)), (sentinel, True))`; a bare
occurrence anywhere else makes the expression unsafe. -/
def divisionSafe (zs : List String) : Expr → Bool
  | .add a b => divisionSafe zs a && divisionSafe zs b
  | .mul a b => divisionSafe zs a && divisionSafe zs b
  | .pow b e => !(isNegNum e && unsafeBase zs b) && divisionSafe zs b && divisionSafe zs e
  | .log a => divisionSafe zs a
  | .ne a b => divisionSafe zs a && divisionSafe zs b
  | .piecewise [(.pow b e, .ne b2 z), (.floatE big, .boolT)] =>
      if b2 = b ∧ z = .intE 0 ∧ big = sentinel then
        divisionSafe zs b && divisionSafe zs e
      else
        (!(isNegNum e && unsafeBase zs b) && divisionSafe zs b && divisionSafe zs e)
          && (divisionSafe zs b2 && divisionSafe zs z)
  | .piecewise brs => divisionSafeBrs zs brs
  | _ => true

/-- Division safety of a branch list (values and conditions). -/
def divisionSafeBrs (zs : List String) : List (Expr × Expr) → Bool
  | [] => true
  | (v, c) :: rest => divisionSafe zs v && divisionSafe zs c && divisionSafeBrs zs rest

end

/-- Is the expression itself a `Pow` node with a literal negative exponent
(the shape that triggers the early-return special case of
`_make_division_safe`)? -/
def isNegPowNode : Expr → Bool
  | .pow _ e => isNegNum e
  | _ => false

/-! ## Rust code printer
(`src/codegen/rust_printer.py`, `CustomRustCodePrinter`). -/

/-- The regex `^-?\d+$` used by the printer to detect a bare integer
literal. -/
def isBareIntLit (s : String) : Bool :=
  match s.toList with
  | [] => false
  | c :: rest =>
      (c == '-' && !rest.isEmpty && rest.all Char.isDigit)
        || (c :: rest).all Char.isDigit

/-- `expr.has(sympy.Piecewise)`: the expression contains a `Piecewise`
node. -/
def containsPiecewise (e : Expr) : Bool :=
  (subexprs e).any fun x =>
    match x with
    | .piecewise _ => true
    | _ => false

/-- Models the inherited printer's rendering of a float literal (an integral
float always carries an explicit decimal part, e.g. `5.0`). -/
def printRat (q : ℚ) : String :=
  if q.den = 1 then toString q.num ++ ".0" else toString q

/-- `isinstance(expr.base, (sympy.Add, sympy.Mul))`. -/
def isAddOrMul : Expr → Bool
  | .add _ _ => true
  | .mul _ _ => true
  | _ => false

mutual

/-- The recursive printer: `_print_Integer`, `_print_Pow`, `_print_Piecewise`
are translated from `CustomRustCodePrinter`; the symbol, addition,
multiplication, relation and function cases model the printer methods
inherited from the engine's Rust printer on the embedded fragment. -/
def printE : Expr → String
  | .intE n => toString n ++ ".0"
  | .floatE q => printRat q
  | .sym s => s
  | .add a b => printE a ++ " + " ++ printE b
  | .mul a b => printE a ++ "*" ++ printE b
  | .pow b e =>
      let base0 := printE b
      let base := if isAddOrMul b && !(base0.startsWith "(") then "(" ++ base0 ++ ")" else base0
      match e with
      | .intE k =>
          if decide (k < 0) && containsPiecewise b then
            "(if " ++ base ++ " != 0.0 \x7b " ++ base ++ ".powi(" ++ toString k
              ++ ") \x7d else \x7b f64::INFINITY \x7d)"
          else
            base ++ ".powi(" ++ toString k ++ ")"
      | _ =>
          let es := printE e
          let es2 := if isBareIntLit es then es ++ ".0" else es
          base ++ ".powf(" ++ es2 ++ ")"
  | .log a => printE a ++ ".ln()"
  | .ne a b => printE a ++ " != " ++ printE b
  | .boolT => "true"
  | .piecewise brs => String.intercalate "\n" (pwLines brs.length 0 brs ++ ["\x7d"])

/-- The line-building loop of `_print_Piecewise` (`n` is the branch count,
`i` the index of the head branch). -/
def pwLines (n i : Nat) : List (Expr × Expr) → List String
  | [] => []
  | (e, c) :: rest =>
      let head :=
        if i == 0 then "if " ++ printE c ++ " \x7b"
        else if i == n - 1 && Expr.beq c .boolT then "\x7d else \x7b"
        else "\x7d else if " ++ printE c ++ " \x7b"
      let es := printE e
      let es2 := if isBareIntLit es then es ++ ".0" else es
      head :: ("    " ++ es2) :: pwLines n (i + 1) rest

end

/-! ## Expression parser dispatch
(`src/parsers/expression_parser.py`, `SbmlExpressionParser`). -/

/-- `SbmlExpressionParser._is_mathml`. -/
def is_mathml (expression : String) : Bool :=
  let stripped := expression.trim
  stripped.startsWith "<?xml" || stripped.startsWith "<math"
    || stripped.startsWith "<apply" || stripped.startsWith "<ci"
    || stripped.startsWith "<cn"

/-- `SbmlExpressionParser.parse`: the top-level dispatch.  A missing
expression (Python `None`) is modelled by `Option.none`; the `not expression`
truthiness test is the empty string; the two format-specific parsers are
parameters (their internals parse MathML / formula strings through the
external engine).  A raised parse error is an `Except.error` (the source
`try/except` re-raises, so errors pass through unchanged). -/
def parse (mathmlP formulaP : String → Except String Expr) :
    Option String → Except String Expr
  | none => .ok (.floatE 0)
  | some s =>
      if s = "" ∨ s = "None" then .ok (.floatE 0)
      else if is_mathml s then mathmlP s
      else formulaP s

/-! ## Optimizer state
(`src/symbolic/optimizer.py`, `SymbolicOptimizer.set_optimization_level`). -/

/-- The optimizer's only piece of state. -/
structure SymbolicOptimizer where
  optimization_level : Int
  deriving Repr, DecidableEq

/-- `SymbolicOptimizer.set_optimization_level`: store the level when it is
within 0..3, otherwise raise `ValueError` (modelled as `Except.error`; the
original object is untouched on that path). -/
def set_optimization_level (_o : SymbolicOptimizer) (level : Int) :
    Except String SymbolicOptimizer :=
  if 0 ≤ level ∧ level ≤ 3 then .ok ⟨level⟩
  else .error "Optimization level must be between 0 and 3"

/-! ## ODE system builder
(`src/symbolic/ode_builder.py`, `OdeSystemBuilder.build_ode_system`). -/

/-- A parsed reaction record: rate-law text plus (stoichiometry, species-id)
pairs. -/
structure Reaction where
  rateLaw : String
  reactants : List (ℚ × String)
  products : List (ℚ × String)
  deriving Repr, DecidableEq

/-- The reactant loop: `dy_dt[idx] -= stoich * rate_expr` for every pair
whose species id is in the species map; unknown species are skipped. -/
def subtractContribs (smap : List (String × Nat)) (rate : Expr) :
    List (ℚ × String) → List Expr → List Expr
  | [], dy => dy
  | (st, sp) :: rest, dy =>
      match List.lookup sp smap with
      | some idx =>
          subtractContribs smap rate rest
            (dy.set idx (.add (dy.getD idx (.floatE 0))
              (.mul (.intE (-1)) (.mul (.floatE st) rate))))
      | none => subtractContribs smap rate rest dy

/-- The product loop: `dy_dt[idx] += stoich * rate_expr`. -/
def addContribs (smap : List (String × Nat)) (rate : Expr) :
    List (ℚ × String) → List Expr → List Expr
  | [], dy => dy
  | (st, sp) :: rest, dy =>
      match List.lookup sp smap with
      | some idx =>
          addContribs smap rate rest
            (dy.set idx (.add (dy.getD idx (.floatE 0))
              (.mul (.floatE st) rate)))
      | none => addContribs smap rate rest dy

/-- The reaction loop of `build_ode_system`: parse the rate law once, apply
reactant then product contributions; a parse failure is printed and re-raised
(`raise e`), i.e. propagated. -/
def build_ode_go (smap : List (String × Nat)) (parseF : String → Except String Expr) :
    List (String × Reaction) → List Expr → Except String (List Expr)
  | [], dy => .ok dy
  | (_, rxn) :: rest, dy =>
      match parseF rxn.rateLaw with
      | .error err => .error err
      | .ok rate =>
          build_ode_go smap parseF rest
            (addContribs smap rate rxn.products
              (subtractContribs smap rate rxn.reactants dy))

/-- `OdeSystemBuilder.build_ode_system`: all rates initialized to
`sympy.Float(0.0)`, then one pass over the reactions. -/
def build_ode_system (smap : List (String × Nat)) (parseF : String → Except String Expr)
    (reactions : List (String × Reaction)) : Except String (List Expr) :=
  build_ode_go smap parseF reactions (List.replicate smap.length (.floatE 0))

/-- Specification-side sum: total `stoichiometry * rate` over the pairs of a
stoichiometry list naming species `s`. -/
def pairSum (v : String → ℚ) (rate : Expr) (s : String) (pairs : List (ℚ × String)) : ℚ :=
  ((pairs.filter (fun p => p.2 == s)).map (fun p => p.1 * evalE v rate)).sum

/-- Specification-side contribution of one reaction to the derivative of
species `s`: products add, reactants subtract. -/
def reactionContribution (v : String → ℚ) (parseF : String → Except String Expr)
    (s : String) (r : Reaction) : ℚ :=
  match parseF r.rateLaw with
  | .ok rate => pairSum v rate s r.products - pairSum v rate s r.reactants
  | .error _ => 0

/-! ## Jacobian builder
(`src/symbolic/jacobian_builder.py`, `JacobianBuilder.compute_sparse_jacobian`). -/

/-- Smart addition: models the engine's automatic collapse of `0 + x`. -/
def saddE (a b : Expr) : Expr :=
  if a = .intE 0 then b else if b = .intE 0 then a else .add a b

/-- Smart multiplication: models the engine's automatic absorption of `0 * x`
and `1 * x`. -/
def smulE (a b : Expr) : Expr :=
  if a = .intE 0 ∨ b = .intE 0 then .intE 0
  else if a = .intE 1 then b
  else if b = .intE 1 then a
  else .mul a b

/-- Models automatic evaluation of `e - 1` on literals. -/
def subOneE : Expr → Expr
  | .intE n => .intE (n - 1)
  | .floatE q => .floatE (q - 1)
  | e => .add e (.intE (-1))

/-- Smart power: models automatic collapse of `b^1` and `b^0`. -/
def spowE (b e : Expr) : Expr :=
  if e = .intE 1 then b else if e = .intE 0 then .intE 1 else .pow b e

mutual

/-- Models the external engine's symbolic differentiation (`sympy.diff`) on
the embedded fragment, with the engine's automatic simplification of zero and
unit factors so that a derivative that vanishes is structurally the zero
expression `Integer(0)`. -/
def diffExpr (x : String) : Expr → Expr
  | .intE _ => .intE 0
  | .floatE _ => .intE 0
  | .sym s => if s = x then .intE 1 else .intE 0
  | .add a b => saddE (diffExpr x a) (diffExpr x b)
  | .mul a b => saddE (smulE (diffExpr x a) b) (smulE a (diffExpr x b))
  | .pow b e =>
      let db := diffExpr x b
      let de := diffExpr x e
      if de = .intE 0 then smulE (smulE e (spowE b (subOneE e))) db
      else saddE (smulE (smulE e (spowE b (subOneE e))) db)
                 (smulE (.pow b e) (smulE de (.log b)))
  | .log a => smulE (spowE a (.intE (-1))) (diffExpr x a)
  | .ne _ _ => .intE 0
  | .boolT => .intE 0
  | .piecewise brs => .piecewise (diffBrs x brs)

/-- Branchwise differentiation of a `Piecewise`. -/
def diffBrs (x : String) : List (Expr × Expr) → List (Expr × Expr)
  | [] => []
  | (v, c) :: rest => (diffExpr x v, c) :: diffBrs x rest

end

/-- The nested loop of `compute_sparse_jacobian`, producing
`((row, col), derivative)` entries in loop order: an entry is kept exactly
when the derivative is not structurally zero (`derivative != 0`). -/
def jacEntries (species_symbols : String → String) (species_list : List String)
    (ode : List Expr) : List ((Nat × Nat) × Expr) :=
  (List.range species_list.length).flatMap fun i =>
    (List.range species_list.length).filterMap fun j =>
      let d := diffExpr (species_symbols (species_list.getD j "")) (ode.getD i (.intE 0))
      if d = .intE 0 then none else some ((i, j), d)

/-- `JacobianBuilder.compute_sparse_jacobian`: the parallel lists of non-zero
Jacobian elements and their (row, col) indices. -/
def compute_sparse_jacobian (species_symbols : String → String)
    (species_list : List String) (ode : List Expr) :
    List Expr × List (Nat × Nat) :=
  let entries := jacEntries species_symbols species_list ode
  (entries.map Prod.snd, entries.map Prod.fst)

/-! ## Dependency analyzer / rule classifier
(`src/core/dependency_analyzer.py`, `DependencyAnalyzer`). -/

/-- The mutable state of `DependencyAnalyzer.classify_rules`' fixed-point
loop (the Python sets are modelled by lists consumed through membership
only). -/
structure CState where
  classified : List String
  static_list : List (String × Expr)
  dynamic_list : List (String × Expr)
  static_vars : List String
  dynamic_vars : List String
  deriving Repr, DecidableEq

/-- Outcome of the per-rule symbol scan: the first symbol that triggers a
condition decides (the source `break`s out of the loop). -/
inductive RuleCheck where
  | dynamic
  | deferred
  | staticOk
  deriving Repr, DecidableEq

/-- The `for sym in symbols` loop of `classify_rules`: a symbol in the
dynamic set makes the rule dynamic; an unclassified rule symbol defers it;
a symbol that is neither a rule nor a known static makes it dynamic; if no
symbol triggers, every dependency is static. -/
def checkSymbols (ruleKeys static_vars dynamic_vars classified : List String) :
    List String → RuleCheck
  | [] => .staticOk
  | s :: rest =>
      if s ∈ dynamic_vars then .dynamic
      else if s ∈ ruleKeys ∧ s ∉ classified then .deferred
      else if s ∉ ruleKeys ∧ s ∉ static_vars then .dynamic
      else checkSymbols ruleKeys static_vars dynamic_vars classified rest

/-- One pass of the multi-pass classification (`for var, expr in rules`),
threading the state and the `made_progress` flag. -/
def classifyPassGo (ruleKeys : List String) :
    List (String × Expr) → CState → Bool → CState × Bool
  | [], st, prog => (st, prog)
  | (var, expr) :: rest, st, prog =>
      if var ∈ st.classified then classifyPassGo ruleKeys rest st prog
      else
        match checkSymbols ruleKeys st.static_vars st.dynamic_vars st.classified
            (freeSyms expr) with
        | .dynamic =>
            classifyPassGo ruleKeys rest
              ⟨st.classified ++ [var], st.static_list, st.dynamic_list ++ [(var, expr)],
               st.static_vars, st.dynamic_vars ++ [var]⟩ true
        | .staticOk =>
            classifyPassGo ruleKeys rest
              ⟨st.classified ++ [var], st.static_list ++ [(var, expr)], st.dynamic_list,
               st.static_vars ++ [var], st.dynamic_vars⟩ true
        | .deferred => classifyPassGo ruleKeys rest st prog

/-- The no-progress fallback: every rule still unclassified is appended to
the dynamic bucket. -/
def forceDynamic : List (String × Expr) → CState → CState
  | [], st => st
  | (var, expr) :: rest, st =>
      if var ∈ st.classified then forceDynamic rest st
      else forceDynamic rest
        ⟨st.classified ++ [var], st.static_list, st.dynamic_list ++ [(var, expr)],
         st.static_vars, st.dynamic_vars⟩

/-- The `while iteration < max_iterations and len(classified) < len(rules)`
loop, with the iteration budget as fuel. -/
def classifyLoop (ruleKeys : List String) (rules : List (String × Expr)) :
    Nat → CState → CState
  | 0, st => st
  | fuel + 1, st =>
      if st.classified.length < rules.length then
        let pr := classifyPassGo ruleKeys rules st false
        if pr.2 = false ∧ pr.1.classified.length < rules.length then forceDynamic rules pr.1
        else classifyLoop ruleKeys rules fuel pr.1
      else st

/-- `DependencyAnalyzer.classify_rules` up to (but not including) the final
topological sort: `max_iterations = len(rules) + 1`; the initial static set
is the parameter ids, the initial dynamic set is the species ids plus `t`,
`time` and the external dynamic variables. -/
def classifyCore (species_ids param_ids : List String) (rules : List (String × Expr))
    (external_dynamic : List String) : CState :=
  classifyLoop (rules.map Prod.fst) rules (rules.length + 1)
    ⟨[], [], [], param_ids, species_ids ++ ["t", "time"] ++ external_dynamic⟩

/-- The dependency map built for static rules after classification: for each
static rule, the free symbols that are both rule variables and known
statics. -/
def classifyStaticDeps (ruleKeys static_vars : List String)
    (static_list : List (String × Expr)) : List (String × List String) :=
  static_list.map fun ve =>
    (ve.1, ((freeSyms ve.2).filter fun s => decide (s ∈ ruleKeys ∧ s ∈ static_vars)).dedup)

/-- The loop of `DependencyAnalyzer._topological_sort`: per pass, move every
rule whose dependencies are already defined; if none is ready, fall back to
appending the remaining rules in declaration order (the boolean records
whether the fallback was avoided, i.e. no residual cycle got in the way). -/
def daTopoLoop (depsMap : List (String × List String)) :
    Nat → List (String × Expr) → List (String × Expr) → List String →
    List (String × Expr) × Bool
  | 0, remaining, sorted, _ => (sorted, remaining.isEmpty)
  | fuel + 1, remaining, sorted, defined =>
      match remaining with
      | [] => (sorted, true)
      | _ :: _ =>
          let p := fun ve : String × Expr =>
            ((depsMap.lookup ve.1).getD []).all fun d => decide (d ∈ defined)
          let ready := remaining.filter p
          if ready.isEmpty then (sorted ++ remaining, false)
          else
            daTopoLoop depsMap fuel (remaining.filter fun ve => !(p ve))
              (sorted ++ ready) (defined ++ ready.map Prod.fst)

/-- `DependencyAnalyzer._topological_sort`: `max_iterations = len(rules) + 1`
passes; the initially defined names are the parameter ids. -/
def da_topological_sort (param_ids : List String) (rules : List (String × Expr))
    (depsMap : List (String × List String)) : List (String × Expr) :=
  (daTopoLoop depsMap (rules.length + 1) rules [] param_ids).1

/-- `DependencyAnalyzer.classify_rules`: classification followed by the
topological sort of the static bucket. -/
def classify_rules (species_ids param_ids : List String) (rules : List (String × Expr))
    (external_dynamic : List String) :
    List (String × Expr) × List (String × Expr) :=
  let st := classifyCore species_ids param_ids rules external_dynamic
  let deps := classifyStaticDeps (rules.map Prod.fst) st.static_vars st.static_list
  (da_topological_sort param_ids st.static_list deps, st.dynamic_list)

/-- Did the static sort inside `classify_rules` complete without the
declaration-order fallback (i.e. the static subset had no residual
dependency cycle)? -/
def classifySortCompleted (species_ids param_ids : List String)
    (rules : List (String × Expr)) (external_dynamic : List String) : Bool :=
  let st := classifyCore species_ids param_ids rules external_dynamic
  let deps := classifyStaticDeps (rules.map Prod.fst) st.static_vars st.static_list
  (daTopoLoop deps (st.static_list.length + 1) st.static_list [] param_ids).2

/-- The dependency map `classify_rules` hands to its topological sort,
as a function of the classifier inputs. -/
def classifyDeps (species_ids param_ids : List String) (rules : List (String × Expr))
    (external_dynamic : List String) : List (String × List String) :=
  let st := classifyCore species_ids param_ids rules external_dynamic
  classifyStaticDeps (rules.map Prod.fst) st.static_vars st.static_list

/-! ## Assignment-rule processor
(`src/symbolic/assignment_processor.py`, `AssignmentRuleProcessor`). -/

/-- An assignment-rule record (`variable` and `math` fields; `variable` is a
Python keyword-free name in the source, rendered here as `var`). -/
structure ARule where
  var : String
  math : String
  deriving Repr, DecidableEq

/-- The parsing loop of `sort_assignment_rules`: each rule's math is parsed;
a parse failure is caught, a warning is printed, and the default value
`sympy.Float(0.0)` is stored instead. -/
def parseRules (parseF : String → Except String Expr) :
    List (String × ARule) → List (String × Expr)
  | [] => []
  | (_, rule) :: rest =>
      (rule.var,
        match parseF rule.math with
        | .ok e => e
        | .error _ => Expr.floatE 0) :: parseRules parseF rest

/-- `AssignmentRuleProcessor._build_dependency_graph`: for each parsed rule,
the set of free symbols that are other assignment-rule variables. -/
def build_dependency_graph (parsed : List (String × Expr)) :
    List (String × List String) :=
  let keys := parsed.map Prod.fst
  parsed.map fun ve =>
    (ve.1, ((freeSyms ve.2).filter fun s => decide (s ∈ keys ∧ s ≠ ve.1)).dedup)

/-- The `while queue` loop of Kahn's algorithm in
`AssignmentRuleProcessor._topological_sort`: pop the front of the queue,
append it to the output, decrement the in-degree of every variable that
depends on it, and enqueue those that reach zero.  Each variable is enqueued
at most once, so `len(dependencies) + 1` rounds of fuel drain the queue. -/
def kahnLoop :
    Nat → List (String × List String × Int) → List String → List String →
    List String
  | 0, _, _, sorted => sorted
  | fuel + 1, entries, queue, sorted =>
      match queue with
      | [] => sorted
      | current :: rest =>
          let entries2 := entries.map fun t =>
            if current ∈ t.2.1 then (t.1, t.2.1, t.2.2 - 1) else t
          let ready := (entries2.filter fun t =>
            decide (current ∈ t.2.1) && decide (t.2.2 = 0)).map Prod.fst
          kahnLoop fuel entries2 (rest ++ ready) (sorted ++ [current])

/-- `AssignmentRuleProcessor._topological_sort`: in-degrees are the
dependency-set sizes, the initial queue is the variables with in-degree zero,
and if the loop fails to process every variable a circular-dependency
`ValueError` naming the unprocessed variables is raised (modelled as
`Except.error` carrying those variables). -/
def ap_topological_sort (dependencies : List (String × List String)) :
    Except (List String) (List String) :=
  let entries := dependencies.map fun pr => (pr.1, pr.2, (pr.2.length : Int))
  let queue := (entries.filter fun t => decide (t.2.2 = 0)).map Prod.fst
  let sorted := kahnLoop (dependencies.length + 1) entries queue []
  if sorted.length ≠ dependencies.length then
    .error ((dependencies.map Prod.fst).filter fun v => decide (v ∉ sorted))
  else .ok sorted

/-- `AssignmentRuleProcessor.sort_assignment_rules`: parse every rule (with
the silent 0.0 default on parse failure), build the dependency graph, sort it
strictly, and return the rules in sorted order. -/
def sort_assignment_rules (parseF : String → Except String Expr)
    (assignment_rules : List (String × ARule)) :
    Except (List String) (List (String × Expr)) :=
  let parsed := parseRules parseF assignment_rules
  let dependencies := build_dependency_graph parsed
  match ap_topological_sort dependencies with
  | .error unprocessed => .error unprocessed
  | .ok sorted_vars =>
      .ok (sorted_vars.filterMap fun v => (parsed.lookup v).map fun e => (v, e))

/-- A directed cycle among the keys of a dependency map: a non-empty list of
distinct variables each of which has the (cyclically) next one among its
dependencies. -/
def isCycleIn (deps : List (String × List String)) (c : List String) : Bool :=
  !c.isEmpty && decide c.Nodup &&
    (List.range c.length).all fun i =>
      (List.lookup (c.getD i "") deps).isSome &&
        ((List.lookup (c.getD i "") deps).getD []).contains
          (c.getD ((i + 1) % c.length) "")

/-- Fixture: the rule set `V1 = V2 + k1`, `V2 = V1 + k2` with a mutual
circular dependency. -/
def circularRules : List (String × Expr) :=
  [("V1", .add (.sym "V2") (.sym "k1")), ("V2", .add (.sym "V1") (.sym "k2"))]

/-- Fixture: a zero-capable `Piecewise((0.0, c), (y, True))`. -/
def Pz : Expr := .piecewise [(.floatE 0, .sym "c"), (.sym "y", .boolT)]

/-- Fixture: a replacement expression that is itself a negative power whose
base both can be zero and contains a nested flagged negative power:
`(Pz^(-1) + a)^(-1)`. -/
def badRep : Expr := .pow (.add (.pow Pz (.intE (-1))) (.sym "a")) (.intE (-1))

/-- Fixture: the single reaction `A -> B` with rate law `k1*A`. -/
def rxnAB : Reaction := ⟨"k1*A", [(1, "A")], [(1, "B")]⟩

/-- Fixture: a parser that accepts exactly the rate law `k1*A`. -/
def parseAB : String → Except String Expr := fun s =>
  if s = "k1*A" then .ok (.mul (.sym "k1") (.sym "A"))
  else .error ("ParseError: " ++ s)

/-- The base string of `_print_Pow` after its parenthesization step. -/
def parenBase (b : Expr) : String :=
  let base0 := printE b
  if isAddOrMul b && !(base0.startsWith "(") then "(" ++ base0 ++ ")" else base0

/-- Wraps a fallible parser so that every failure is replaced by the parsed
default `0.0` — the absorption that `sort_assignment_rules` applies to parse
errors. -/
def totalize (parseF : String → Except String Expr) : String → Except String Expr :=
  fun s =>
    match parseF s with
    | .ok e => .ok e
    | .error _ => .ok (.floatE 0)

/-- The ordering invariant of a topologically sorted rule list: every
dependency of the rule at position `i` is a parameter or appears among the
first `i` rules. -/
def TopoOrdered (param_ids : List String) (depsMap : List (String × List String))
    (L : List (String × Expr)) : Prop :=
  ∀ i, (h : i < L.length) → ∀ u ∈ (depsMap.lookup (L.get ⟨i, h⟩).1).getD [],
    u ∈ param_ids ∨ u ∈ (L.take i).map Prod.fst

/-- Fixture: the circular assignment-rule records `V1 = V2 + k1`,
`V2 = V1 + k2`. -/
def cycARules : List (String × ARule) :=
  [("rule1", ⟨"V1", "V2 + k1"⟩), ("rule2", ⟨"V2", "V1 + k2"⟩)]

/-- Fixture: a parser recognizing exactly the two circular rule bodies. -/
def cycParse : String → Except String Expr := fun s =>
  if s = "V2 + k1" then .ok (.add (.sym "V2") (.sym "k1"))
  else if s = "V1 + k2" then .ok (.add (.sym "V1") (.sym "k2"))
  else .error ("ParseError: " ++ s)

/-- The inductive invariant of the Kahn loop in
`AssignmentRuleProcessor._topological_sort`, relative to a fixed dependency
map `deps0` and a fixed cycle `c`:
the entry list always carries in-degrees equal to the number of
dependencies not yet emitted; queue and output are disjoint; every queued
variable has all dependencies emitted; queued and emitted variables are
keys; the output has no duplicates; emitted variables have all dependencies
emitted; and no member of the cycle has been queued or emitted. -/
def KahnInv (deps0 : List (String × List String)) (c : List String)
    (entries : List (String × List String × Int)) (queue sorted : List String) : Prop :=
  entries = deps0.map (fun pr =>
    (pr.1, pr.2, ((pr.2.filter (fun d => decide (d ∉ sorted))).length : Int))) ∧
  (∀ v ∈ queue, v ∉ sorted) ∧
  (∀ v ∈ queue, ∀ ds, List.lookup v deps0 = some ds → ∀ d ∈ ds, d ∈ sorted) ∧
  (∀ v ∈ queue, v ∈ deps0.map Prod.fst) ∧
  queue.Nodup ∧
  sorted.Nodup ∧
  (∀ v ∈ sorted, v ∈ deps0.map Prod.fst) ∧
  (∀ v ∈ sorted, ∀ ds, List.lookup v deps0 = some ds → ∀ d ∈ ds, d ∈ sorted) ∧
  (∀ m ∈ c, m ∉ sorted ∧ m ∉ queue)

/-- Fixture: the acyclic static rule pair `V1 = k1`, `V2 = V1 + k2`. -/
def staticChainRules : List (String × Expr) :=
  [("V1", .sym "k1"), ("V2", .add (.sym "V1") (.sym "k2"))]

/-- Fixture: the static chain `U = k1`, `V = U + k2`, `D = V + k3`, to be
classified with `V` also among the parameter ids, so that `D`'s dependency
`V` counts as initially defined in the topological sort. -/
def shadowRules : List (String × Expr) :=
  [("U", .sym "k1"), ("V", .add (.sym "U") (.sym "k2")),
   ("D", .add (.sym "V") (.sym "k3"))]

/-- The inductive invariant of the classifier's fixed-point loop: classified
variables are distinct rule variables, and the static and dynamic buckets
together hold exactly the classified rules. -/
def ClassInv (rules : List (String × Expr)) (st : CState) : Prop :=
  st.classified.Nodup ∧
  (∀ v ∈ st.classified, v ∈ rules.map Prod.fst) ∧
  ((st.static_list ++ st.dynamic_list).Perm
    (rules.filter (fun r => decide (r.1 ∈ st.classified))))

/-! # Theorems -/

/-! ## Generic list helpers -/

theorem getD_set_self {l : List Expr} {i : Nat} {x d : Expr} (h : i < l.length) :
    (l.set i x).getD i d = x := by
  simp [List.getD_eq_getElem?_getD, List.getElem?_set_self, h]

theorem getD_set_ne {l : List Expr} {i j : Nat} {x d : Expr} (h : i ≠ j) :
    (l.set i x).getD j d = l.getD j d := by
  simp [List.getD_eq_getElem?_getD, List.getElem?_set_ne h]

theorem getD_replicate {n i : Nat} {x d : Expr} (h : i < n) :
    (List.replicate n x).getD i d = x := by
  simp [List.getD_eq_getElem?_getD, List.getElem?_replicate, h]

theorem lookup_of_mem_nodup {β : Type} {l : List (String × β)} {s : String} {b : β}
    (hnd : (l.map Prod.fst).Nodup) (hmem : (s, b) ∈ l) : l.lookup s = some b := by
  induction l with
  | nil => simp at hmem
  | cons hd tl ih =>
    simp only [List.map_cons, List.nodup_cons] at hnd
    rcases List.mem_cons.mp hmem with heq | htl
    · rw [← heq]; simp [List.lookup]
    · have hne : (s == hd.1) = false := by
        apply beq_eq_false_iff_ne.mpr
        intro he
        apply hnd.1
        rw [← he]
        exact List.mem_map.mpr ⟨(s, b), htl, rfl⟩
      simp only [List.lookup, hne]
      exact ih hnd.2 htl

theorem mem_of_lookup {β : Type} {l : List (String × β)} {s : String} {b : β}
    (h : l.lookup s = some b) : (s, b) ∈ l := by
  induction l with
  | nil => simp [List.lookup] at h
  | cons hd tl ih =>
    cases hb : (s == hd.1) with
    | true =>
        have he : s = hd.1 := by simpa using hb
        simp only [List.lookup, hb, Option.some.injEq] at h
        apply List.mem_cons.mpr
        exact Or.inl (by cases hd with | mk x y => simp_all)
    | false =>
        simp only [List.lookup, hb] at h
        exact List.mem_cons.mpr (Or.inr (ih h))

theorem snd_inj_of_nodup {l : List (String × Nat)} {a b : String} {i : Nat}
    (hnd : (l.map Prod.snd).Nodup) (ha : (a, i) ∈ l) (hb : (b, i) ∈ l) : a = b := by
  induction l with
  | nil => simp at ha
  | cons hd tl ih =>
    simp only [List.map_cons, List.nodup_cons] at hnd
    rcases List.mem_cons.mp ha with h1 | h1 <;> rcases List.mem_cons.mp hb with h2 | h2
    · exact (Prod.ext_iff.mp (h1.trans h2.symm)).1
    · exfalso
      apply hnd.1
      rw [← h1]
      exact List.mem_map.mpr ⟨(b, i), h2, rfl⟩
    · exfalso
      apply hnd.1
      rw [← h2]
      exact List.mem_map.mpr ⟨(a, i), h1, rfl⟩
    · exact ih hnd.2 h1 h2

/-! ## C9: empty / missing expressions parse to the constant 0.0 -/

/-- C9: for every pair of format-specific sub-parsers, a missing expression
(`None`), the empty string and the literal string `"None"` all parse to the
AIR constant `0.0` without an error. -/
theorem C9_parse_empty_default (mathmlP formulaP : String → Except String Expr) :
    parse mathmlP formulaP none = .ok (.floatE 0) ∧
    parse mathmlP formulaP (some "") = .ok (.floatE 0) ∧
    parse mathmlP formulaP (some "None") = .ok (.floatE 0) := by
  refine ⟨rfl, ?_, ?_⟩ <;> simp [parse]

/-! ## C10: set_optimization_level validation -/

/-- C10: `set_optimization_level` stores the level exactly when it lies in
0..3 and otherwise raises a `ValueError` without producing any new state (the
stored level of the original optimizer object is untouched). -/
theorem C10_set_optimization_level (o : SymbolicOptimizer) (level : Int) :
    (0 ≤ level ∧ level ≤ 3 →
      set_optimization_level o level = .ok ⟨level⟩) ∧
    (¬(0 ≤ level ∧ level ≤ 3) →
      set_optimization_level o level =
        .error "Optimization level must be between 0 and 3") := by
  constructor <;> intro h <;> simp [set_optimization_level, h]

/-- Witness for C10 at levels 3 (accepted) and 5 (rejected). -/
theorem C10_witness :
    set_optimization_level ⟨2⟩ 3 = .ok ⟨3⟩ ∧
    set_optimization_level ⟨2⟩ 5 =
      .error "Optimization level must be between 0 and 3" :=
  ⟨(C10_set_optimization_level ⟨2⟩ 3).1 (by decide),
   (C10_set_optimization_level ⟨2⟩ 5).2 (by decide)⟩

/-! ## C8: integer literals always render in float form -/

theorem isBareIntLit_append_dot (s : String) : isBareIntLit (s ++ ".0") = false := by
  have hdata : (s ++ ".0").toList = s.toList ++ ['.', '0'] := by
    simp [String.toList, String.data_append]
  cases he : s.toList with
  | nil =>
    have he2 : s.data = [] := he
    simp [isBareIntLit, String.toList, String.data_append, he2]
  | cons c cs =>
    have he2 : s.data = c :: cs := he
    simp [isBareIntLit, String.toList, String.data_append, he2, List.all_append]

theorem pwLines_mem_coerced (n : Nat) :
    ∀ (i : Nat) (brs : List (Expr × Expr)) (vc : Expr × Expr), vc ∈ brs →
      isBareIntLit (printE vc.1) = true →
      ("    " ++ (printE vc.1 ++ ".0")) ∈ pwLines n i brs := by
  intro i brs
  induction brs generalizing i with
  | nil => intro vc h; simp at h
  | cons hd tl ih =>
    intro vc hvc hbare
    obtain ⟨e, c⟩ := hd
    rcases List.mem_cons.mp hvc with heq | htl
    · rw [heq]
      rw [heq] at hbare
      simp only [pwLines, hbare]
      exact List.mem_cons.mpr (Or.inr (List.mem_cons.mpr (Or.inl (by simp))))
    · have hmem := ih (i + 1) vc htl hbare
      simp only [pwLines]
      exact List.mem_cons.mpr (Or.inr (List.mem_cons.mpr (Or.inr hmem)))

/-- C8: every integer literal prints with an explicit `.0` suffix (so it is
never a bare integer), the constant `5` prints exactly as `"5.0"`, and any
`Piecewise` branch whose value prints as a bare integer gets `".0"` appended
in the rendered conditional chain. -/
theorem C8_integer_float_literals :
    (∀ n : Int, printE (.intE n) = toString n ++ ".0" ∧
      isBareIntLit (printE (.intE n)) = false) ∧
    printE (.intE 5) = "5.0" ∧
    (∀ (brs : List (Expr × Expr)) (vc : Expr × Expr), vc ∈ brs →
      isBareIntLit (printE vc.1) = true →
      ("    " ++ (printE vc.1 ++ ".0")) ∈ pwLines brs.length 0 brs ∧
      printE (.piecewise brs) =
        String.intercalate "\n" (pwLines brs.length 0 brs ++ ["\x7d"])) := by
  refine ⟨fun n => ⟨rfl, ?_⟩, by decide, fun brs vc hmem hbare => ⟨?_, rfl⟩⟩
  · have : printE (.intE n) = toString n ++ ".0" := rfl
    rw [this]
    exact isBareIntLit_append_dot (toString n)
  · exact pwLines_mem_coerced brs.length 0 brs vc hmem hbare

/-- Witness for C8: in the two-branch piecewise
`Piecewise((7, c), (2, True))` whose first value prints as the bare integer
`"7"`, the rendered chain contains the coerced line `"    7.0"`. -/
theorem C8_witness :
    ("    " ++ (printE (Expr.sym "7") ++ ".0")) ∈
      pwLines 2 0 [(Expr.sym "7", Expr.sym "c"), (Expr.intE 2, Expr.boolT)] :=
  (C8_integer_float_literals.2.2
    [(Expr.sym "7", Expr.sym "c"), (Expr.intE 2, Expr.boolT)]
    (Expr.sym "7", Expr.sym "c") (by simp) (by decide)).1

/-! ## C4: sparse Jacobian structure -/

theorem jacEntries_mem (ss : String → String) (sl : List String) (ode : List Expr)
    (en : (Nat × Nat) × Expr) :
    en ∈ jacEntries ss sl ode ↔
      en.1.1 < sl.length ∧ en.1.2 < sl.length ∧
      diffExpr (ss (sl.getD en.1.2 "")) (ode.getD en.1.1 (.intE 0)) ≠ .intE 0 ∧
      en.2 = diffExpr (ss (sl.getD en.1.2 "")) (ode.getD en.1.1 (.intE 0)) := by
  simp only [jacEntries, List.mem_flatMap, List.mem_filterMap, List.mem_range]
  constructor
  · rintro ⟨i, hi, j, hj, hopt⟩
    split at hopt
    · exact absurd hopt (by simp)
    · rename_i hne
      obtain ⟨rfl⟩ := Option.some.injEq _ _ ▸ hopt
      exact ⟨hi, hj, hne, rfl⟩
  · rintro ⟨h1, h2, h3, h4⟩
    refine ⟨en.1.1, h1, en.1.2, h2, ?_⟩
    rw [if_neg h3, ← h4]

theorem C4_compute_sparse_jacobian (ss : String → String) (sl : List String)
    (ode : List Expr) (hlen : ode.length = sl.length) :
    (compute_sparse_jacobian ss sl ode).1.length =
        (compute_sparse_jacobian ss sl ode).2.length ∧
    (∀ pr ∈ (compute_sparse_jacobian ss sl ode).2,
      pr.1 < sl.length ∧ pr.2 < sl.length) ∧
    (compute_sparse_jacobian ss sl ode).2.Nodup ∧
    (∀ i j : Nat, (i, j) ∈ (compute_sparse_jacobian ss sl ode).2 ↔
      i < sl.length ∧ j < sl.length ∧
      diffExpr (ss (sl.getD j "")) (ode.getD i (.intE 0)) ≠ .intE 0) ∧
    (∀ pr ∈ ((compute_sparse_jacobian ss sl ode).2.zip
        (compute_sparse_jacobian ss sl ode).1),
      pr.2 = diffExpr (ss (sl.getD pr.1.2 "")) (ode.getD pr.1.1 (.intE 0))) := by
  refine ⟨by simp [compute_sparse_jacobian], ?_, ?_, ?_, ?_⟩
  · intro pr hpr
    simp only [compute_sparse_jacobian, List.mem_map] at hpr
    obtain ⟨en, hen, rfl⟩ := hpr
    have := (jacEntries_mem ss sl ode en).mp hen
    exact ⟨this.1, this.2.1⟩
  · show ((jacEntries ss sl ode).map Prod.fst).Nodup
    rw [jacEntries, List.map_flatMap, List.nodup_flatMap]
    constructor
    · intro i _
      rw [List.map_filterMap]
      refine List.Nodup.filterMap ?_ (List.nodup_range _)
      intro a b c hca hcb
      rw [Option.mem_def] at hca hcb
      dsimp only at hca hcb
      split at hca
      · exact absurd hca (by simp)
      · split at hcb
        · exact absurd hcb (by simp)
        · simp only [Option.map_some', Option.some.injEq] at hca hcb
          have : (i, a) = (i, b) := hca.trans hcb.symm
          simpa using this
    · refine (List.pairwise_lt_range _).imp ?_
      intro a b hab
      simp only [Function.onFun, List.disjoint_left]
      intro pr hpa hpb
      rw [List.map_filterMap] at hpa hpb
      obtain ⟨x, _, hx⟩ := List.mem_filterMap.mp hpa
      obtain ⟨y, _, hy⟩ := List.mem_filterMap.mp hpb
      split at hx
      · exact absurd hx (by simp)
      · split at hy
        · exact absurd hy (by simp)
        · simp only [Option.map_some', Option.some.injEq] at hx hy
          have hxy : a = b := by
            have h1 : (a : Nat) = pr.1 := by rw [← hx]
            have h2 : (b : Nat) = pr.1 := by rw [← hy]
            rw [h1, h2]
          exact absurd hxy hab.ne
  · intro i j
    constructor
    · intro hmem
      simp only [compute_sparse_jacobian, List.mem_map] at hmem
      obtain ⟨en, hen, hfst⟩ := hmem
      have h := (jacEntries_mem ss sl ode en).mp hen
      have h11 : en.1.1 = i := by rw [hfst]
      have h12 : en.1.2 = j := by rw [hfst]
      rw [← h11, ← h12]
      exact ⟨h.1, h.2.1, h.2.2.1⟩
    · intro ⟨h1, h2, h3⟩
      simp only [compute_sparse_jacobian, List.mem_map]
      exact ⟨((i, j), diffExpr (ss (sl.getD j "")) (ode.getD i (.intE 0))),
        (jacEntries_mem ss sl ode _).mpr ⟨h1, h2, h3, rfl⟩, rfl⟩
  · intro pr hpr
    simp only [compute_sparse_jacobian] at hpr
    rw [List.zip_map'] at hpr
    simp only [List.mem_map] at hpr
    obtain ⟨en, hen, rfl⟩ := hpr
    exact ((jacEntries_mem ss sl ode en).mp hen).2.2.2

/-- Witness for C4: for the system `dy/dt = [k1*A, B]` over species
`[A, B]`, the entry `(0, 0)` (the partial of `k1*A` with respect to `A`,
which is `k1`) is among the sparse indices. -/
theorem C4_witness :
    (0, 0) ∈ (compute_sparse_jacobian (fun s => s) ["A", "B"]
      [.mul (.sym "k1") (.sym "A"), .sym "B"]).2 :=
  ((C4_compute_sparse_jacobian (fun s => s) ["A", "B"]
      [.mul (.sym "k1") (.sym "A"), .sym "B"] rfl).2.2.2.1 0 0).mpr
    ⟨by decide, by decide, by decide⟩

/-! ## C2: ODE system builder -/

theorem subtractContribs_length (smap : List (String × Nat)) (rate : Expr) :
    ∀ (pairs : List (ℚ × String)) (dy : List Expr),
      (subtractContribs smap rate pairs dy).length = dy.length := by
  intro pairs
  induction pairs with
  | nil => intro dy; rfl
  | cons hd tl ih =>
    intro dy
    obtain ⟨st, sp⟩ := hd
    simp only [subtractContribs]
    cases List.lookup sp smap with
    | none => exact ih dy
    | some idx => rw [ih]; simp

theorem addContribs_length (smap : List (String × Nat)) (rate : Expr) :
    ∀ (pairs : List (ℚ × String)) (dy : List Expr),
      (addContribs smap rate pairs dy).length = dy.length := by
  intro pairs
  induction pairs with
  | nil => intro dy; rfl
  | cons hd tl ih =>
    intro dy
    obtain ⟨st, sp⟩ := hd
    simp only [addContribs]
    cases List.lookup sp smap with
    | none => exact ih dy
    | some idx => rw [ih]; simp

theorem subtractContribs_getD (smap : List (String × Nat)) (rate : Expr)
    (hfst : (smap.map Prod.fst).Nodup) (hsnd : (smap.map Prod.snd).Nodup)
    (hidx : ∀ p ∈ smap, p.2 < smap.length) (s : String) (i : Nat)
    (hmem : (s, i) ∈ smap) (v : String → ℚ) :
    ∀ (pairs : List (ℚ × String)) (dy : List Expr), dy.length = smap.length →
      evalE v ((subtractContribs smap rate pairs dy).getD i (.floatE 0)) =
        evalE v (dy.getD i (.floatE 0)) - pairSum v rate s pairs := by
  intro pairs
  induction pairs with
  | nil => intro dy _; simp [subtractContribs, pairSum]
  | cons hd tl ih =>
    intro dy hlen
    obtain ⟨st, sp⟩ := hd
    simp only [subtractContribs]
    cases hl : List.lookup sp smap with
    | none =>
      have hne : (sp == s) = false := by
        apply beq_eq_false_iff_ne.mpr
        intro he
        rw [he, lookup_of_mem_nodup hfst hmem] at hl
        exact Option.noConfusion hl
      rw [ih dy hlen]
      simp [pairSum, hne]
    | some idx =>
      have hlen2 : (dy.set idx (.add (dy.getD idx (.floatE 0))
          (.mul (.intE (-1)) (.mul (.floatE st) rate)))).length = smap.length := by
        rw [List.length_set]; exact hlen
      rw [ih _ hlen2]
      by_cases he : sp = s
      · have hidxi : idx = i := by
          rw [he, lookup_of_mem_nodup hfst hmem] at hl
          exact (Option.some.inj hl).symm
        rw [hidxi, getD_set_self (by rw [hlen]; exact hidx (s, i) hmem)]
        have hsp : (sp == s) = true := beq_iff_eq.mpr he
        simp only [pairSum, List.filter_cons, hsp, List.map_cons, List.sum_cons, evalE]
        push_cast
        simp only [List.map_cons, List.sum_cons]
        ring
      · have hne2 : idx ≠ i := by
          intro heq
          exact he (snd_inj_of_nodup hsnd (heq ▸ mem_of_lookup hl) hmem)
        rw [getD_set_ne hne2]
        have hne : (sp == s) = false := beq_eq_false_iff_ne.mpr he
        simp [pairSum, hne]

theorem addContribs_getD (smap : List (String × Nat)) (rate : Expr)
    (hfst : (smap.map Prod.fst).Nodup) (hsnd : (smap.map Prod.snd).Nodup)
    (hidx : ∀ p ∈ smap, p.2 < smap.length) (s : String) (i : Nat)
    (hmem : (s, i) ∈ smap) (v : String → ℚ) :
    ∀ (pairs : List (ℚ × String)) (dy : List Expr), dy.length = smap.length →
      evalE v ((addContribs smap rate pairs dy).getD i (.floatE 0)) =
        evalE v (dy.getD i (.floatE 0)) + pairSum v rate s pairs := by
  intro pairs
  induction pairs with
  | nil => intro dy _; simp [addContribs, pairSum]
  | cons hd tl ih =>
    intro dy hlen
    obtain ⟨st, sp⟩ := hd
    simp only [addContribs]
    cases hl : List.lookup sp smap with
    | none =>
      have hne : (sp == s) = false := by
        apply beq_eq_false_iff_ne.mpr
        intro he
        rw [he, lookup_of_mem_nodup hfst hmem] at hl
        exact Option.noConfusion hl
      rw [ih dy hlen]
      simp [pairSum, hne]
    | some idx =>
      have hlen2 : (dy.set idx (.add (dy.getD idx (.floatE 0))
          (.mul (.floatE st) rate))).length = smap.length := by
        rw [List.length_set]; exact hlen
      rw [ih _ hlen2]
      by_cases he : sp = s
      · have hidxi : idx = i := by
          rw [he, lookup_of_mem_nodup hfst hmem] at hl
          exact (Option.some.inj hl).symm
        rw [hidxi, getD_set_self (by rw [hlen]; exact hidx (s, i) hmem)]
        have hsp : (sp == s) = true := beq_iff_eq.mpr he
        simp only [pairSum, List.filter_cons, hsp, List.map_cons, List.sum_cons, evalE]
        push_cast
        simp only [List.map_cons, List.sum_cons]
        ring
      · have hne2 : idx ≠ i := by
          intro heq
          exact he (snd_inj_of_nodup hsnd (heq ▸ mem_of_lookup hl) hmem)
        rw [getD_set_ne hne2]
        have hne : (sp == s) = false := beq_eq_false_iff_ne.mpr he
        simp [pairSum, hne]

theorem build_ode_go_ok (smap : List (String × Nat)) (parseF : String → Except String Expr)
    (hfst : (smap.map Prod.fst).Nodup) (hsnd : (smap.map Prod.snd).Nodup)
    (hidx : ∀ p ∈ smap, p.2 < smap.length) :
    ∀ (reactions : List (String × Reaction)) (dy : List Expr),
      (∀ r ∈ reactions, ∃ e, parseF r.2.rateLaw = .ok e) → dy.length = smap.length →
      ∃ out, build_ode_go smap parseF reactions dy = .ok out ∧
        out.length = smap.length ∧
        ∀ s i, (s, i) ∈ smap → ∀ v, evalE v (out.getD i (.floatE 0)) =
          evalE v (dy.getD i (.floatE 0)) +
            (reactions.map fun r => reactionContribution v parseF s r.2).sum := by
  intro reactions
  induction reactions with
  | nil =>
    intro dy _ hlen
    exact ⟨dy, rfl, hlen, fun s i _ v => by simp⟩
  | cons hd tl ih =>
    intro dy hok hlen
    obtain ⟨rid, rxn⟩ := hd
    obtain ⟨rate, hrate⟩ := hok (rid, rxn) (List.mem_cons_self _ _)
    have hlen2 : (addContribs smap rate rxn.products
        (subtractContribs smap rate rxn.reactants dy)).length = smap.length := by
      rw [addContribs_length, subtractContribs_length]; exact hlen
    obtain ⟨out, hout, houtlen, houteval⟩ :=
      ih (addContribs smap rate rxn.products (subtractContribs smap rate rxn.reactants dy))
        (fun r hr => hok r (List.mem_cons_of_mem _ hr)) hlen2
    refine ⟨out, ?_, houtlen, ?_⟩
    · simp only [build_ode_go, hrate]
      exact hout
    · intro s i hmem v
      rw [houteval s i hmem v]
      rw [addContribs_getD smap rate hfst hsnd hidx s i hmem v rxn.products _
        (by rw [subtractContribs_length]; exact hlen)]
      rw [subtractContribs_getD smap rate hfst hsnd hidx s i hmem v rxn.reactants dy hlen]
      simp only [List.map_cons, List.sum_cons, reactionContribution, hrate]
      ring

/-- C2: with a well-formed species index map, `build_ode_system` succeeds
whenever every rate law parses (unknown species ids are skipped silently and
raise no error), and the entry for an indexed species `s` evaluates — for
every valuation — to the sum over all reactions of `stoichiometry * rate`
over its product pairs minus the same sum over its reactant pairs (starting
from the zero initialization).  In particular, for the single reaction
`A -> B` with rate `k1*A`, the two derivative entries are additive
inverses. -/
theorem C2_build_ode_system (smap : List (String × Nat))
    (parseF : String → Except String Expr) (reactions : List (String × Reaction))
    (hfst : (smap.map Prod.fst).Nodup) (hsnd : (smap.map Prod.snd).Nodup)
    (hidx : ∀ p ∈ smap, p.2 < smap.length) :
    ((∀ r ∈ reactions, ∃ e, parseF r.2.rateLaw = .ok e) →
      ∃ dy, build_ode_system smap parseF reactions = .ok dy ∧
        dy.length = smap.length ∧
        ∀ s i, (s, i) ∈ smap → ∀ v, evalE v (dy.getD i (.floatE 0)) =
          (reactions.map fun r => reactionContribution v parseF s r.2).sum) ∧
    (∃ dyAB, build_ode_system [("A", 0), ("B", 1)] parseAB [("r1", rxnAB)] = .ok dyAB ∧
      ∀ v, evalE v (dyAB.getD 0 (.floatE 0)) = - evalE v (dyAB.getD 1 (.floatE 0))) := by
  constructor
  · intro hok
    obtain ⟨out, hout, hlen, heval⟩ :=
      build_ode_go_ok smap parseF hfst hsnd hidx reactions
        (List.replicate smap.length (.floatE 0)) hok (by simp)
    refine ⟨out, hout, hlen, fun s i hmem v => ?_⟩
    rw [heval s i hmem v, getD_replicate (hidx (s, i) hmem)]
    simp [evalE]
  · refine ⟨_, rfl, fun v => ?_⟩
    simp [evalE]

/-- Witness for C2: the `A -> B` system built with the well-formed two-species
index map. -/
theorem C2_witness :
    ∃ dy, build_ode_system [("A", 0), ("B", 1)] parseAB [("r1", rxnAB)] = .ok dy ∧
      dy.length = 2 ∧
      ∀ s i, (s, i) ∈ [("A", 0), ("B", 1)] → ∀ v,
        evalE v (dy.getD i (.floatE 0)) =
          ([("r1", rxnAB)].map fun r =>
            reactionContribution v parseAB s r.2).sum :=
  (C2_build_ode_system [("A", 0), ("B", 1)] parseAB [("r1", rxnAB)]
    (by decide) (by decide) (by decide)).1
    (fun r hr => by
      rcases List.mem_singleton.mp hr with rfl
      exact ⟨.mul (.sym "k1") (.sym "A"), rfl⟩)

/-! ## C3: parse-error propagation policy -/

/-- Counterexample to C3: the assignment-rule processor does not propagate a
parse error.  With a parser that fails on every input (so the rule's math
`"x**"` is malformed and parses to an error), `sort_assignment_rules`
nevertheless succeeds and silently stores the default constant `0.0` for the
rule — the compilation is not aborted and the malformed expression is
replaced by a default value, contradicting the claim for the assignment-rule
component. -/
theorem C3_counterexample :
    ((fun _ : String => (.error "ParseError: malformed" : Except String Expr)) "x**"
        = .error "ParseError: malformed") ∧
    sort_assignment_rules (fun _ => .error "ParseError: malformed")
      [("rule1", ⟨"V1", "x**"⟩)] = .ok [("V1", .floatE 0)] := ⟨rfl, rfl⟩

theorem parseRules_totalize (parseF : String → Except String Expr) :
    ∀ rules : List (String × ARule),
      parseRules (totalize parseF) rules = parseRules parseF rules := by
  intro rules
  induction rules with
  | nil => rfl
  | cons hd tl ih =>
    obtain ⟨rid, rule⟩ := hd
    cases h : parseF rule.math <;> simp [parseRules, totalize, h, ih]

theorem build_ode_go_error (smap : List (String × Nat))
    (parseF : String → Except String Expr) (msg : String) :
    ∀ (reactions : List (String × Reaction)) (dy : List Expr)
      (r : String × Reaction), r ∈ reactions → parseF r.2.rateLaw = .error msg →
      ∃ emsg, build_ode_go smap parseF reactions dy = .error emsg := by
  intro reactions
  induction reactions with
  | nil => intro dy r hr; simp at hr
  | cons hd tl ih =>
    intro dy r hr herr
    obtain ⟨rid, rxn⟩ := hd
    cases hp : parseF rxn.rateLaw with
    | error e => exact ⟨e, by simp [build_ode_go, hp]⟩
    | ok rate =>
      rcases List.mem_cons.mp hr with heq | htl
      · rw [heq] at herr
        simp only at herr
        rw [hp] at herr
        exact absurd herr (by simp)
      · obtain ⟨emsg, hemsg⟩ := ih _ r htl herr
        exact ⟨emsg, by simp only [build_ode_go, hp]; exact hemsg⟩

/-- C3 amended: a rate-law parse failure is propagated by the ODE builder and
aborts the build, and empty/missing expressions are the only silent default
(per C9); but the assignment-rule processor is an exception: it absorbs every
parse failure into the default constant `0.0` (with a logged warning), so its
output is the same as if the parser never failed and returned `0.0`
instead. -/
theorem C3_parse_error_policy :
    (∀ (smap : List (String × Nat)) (parseF : String → Except String Expr)
      (reactions : List (String × Reaction)) (msg : String) (r : String × Reaction),
      r ∈ reactions → parseF r.2.rateLaw = .error msg →
      ∃ emsg, build_ode_system smap parseF reactions = .error emsg) ∧
    (∀ (parseF : String → Except String Expr) (rules : List (String × ARule)),
      sort_assignment_rules parseF rules =
        sort_assignment_rules (totalize parseF) rules) := by
  constructor
  · intro smap parseF reactions msg r hr herr
    exact build_ode_go_error smap parseF msg reactions _ r hr herr
  · intro parseF rules
    unfold sort_assignment_rules
    rw [parseRules_totalize]

/-- Witness for C3's amended theorem: a failing rate-law parse aborts the
build of a one-reaction system. -/
theorem C3_witness :
    ∃ emsg, build_ode_system [("A", 0)] (fun _ => .error "ParseError: bad")
      [("r1", ⟨"k1*", [(1, "A")], []⟩)] = .error emsg :=
  C3_parse_error_policy.1 [("A", 0)] (fun _ => .error "ParseError: bad")
    [("r1", ⟨"k1*", [(1, "A")], []⟩)] "ParseError: bad"
    ("r1", ⟨"k1*", [(1, "A")], []⟩) (by simp) rfl

/-! ## C7: strict topological sort detects cycles -/

theorem isCycleIn_spec (deps : List (String × List String)) (c : List String)
    (hc : isCycleIn deps c = true) (m : String) (hm : m ∈ c) :
    ∃ ds m2, List.lookup m deps = some ds ∧ m2 ∈ ds ∧ m2 ∈ c := by
  simp only [isCycleIn, Bool.and_eq_true, List.all_eq_true, List.mem_range,
    decide_eq_true_eq] at hc
  obtain ⟨⟨hne, hnd⟩, hall⟩ := hc
  have hlen : 0 < c.length := by
    cases c with
    | nil => simp at hm
    | cons a l => simp
  obtain ⟨⟨j, hj⟩, hgj⟩ := List.mem_iff_get.mp hm
  have hgetD : c.getD j "" = m := by
    rw [List.getD_eq_getElem?_getD, List.getElem?_eq_getElem hj]
    simpa using hgj
  have h2 := hall j hj
  rw [hgetD] at h2
  obtain ⟨hsome, hcont⟩ := h2
  obtain ⟨ds, hds⟩ := Option.isSome_iff_exists.mp hsome
  refine ⟨ds, c.getD ((j + 1) % c.length) "", hds, ?_, ?_⟩
  · rw [hds] at hcont
    simp only [Option.getD_some] at hcont
    exact List.mem_of_elem_eq_true hcont
  · have hmod : (j + 1) % c.length < c.length := Nat.mod_lt _ hlen
    rw [List.getD_eq_getElem?_getD, List.getElem?_eq_getElem hmod]
    exact List.getElem_mem hmod

theorem kahnStep_inv (deps0 : List (String × List String)) (c : List String)
    (hkeys : (deps0.map Prod.fst).Nodup) (hds : ∀ pr ∈ deps0, pr.2.Nodup)
    (hc : isCycleIn deps0 c = true)
    (entries : List (String × List String × Int)) (current : String)
    (rest sorted : List String)
    (hInv : KahnInv deps0 c entries (current :: rest) sorted) :
    KahnInv deps0 c
      (entries.map fun t => if current ∈ t.2.1 then (t.1, t.2.1, t.2.2 - 1) else t)
      (rest ++ ((entries.map fun t =>
          if current ∈ t.2.1 then (t.1, t.2.1, t.2.2 - 1) else t).filter
            (fun t => decide (current ∈ t.2.1) && decide (t.2.2 = 0))).map Prod.fst)
      (sorted ++ [current]) := by
  obtain ⟨hE, hQS, hQD, hQK, hQN, hSN, hSK, hSD, hB⟩ := hInv
  have hcurS : current ∉ sorted := hQS current (List.mem_cons_self _ _)
  have hcurK : current ∈ deps0.map Prod.fst := hQK current (List.mem_cons_self _ _)
  have hcurD : ∀ ds, List.lookup current deps0 = some ds → ∀ d ∈ ds, d ∈ sorted :=
    hQD current (List.mem_cons_self _ _)
  have hcur_rest : current ∉ rest := (List.nodup_cons.mp hQN).1
  have hrestN : rest.Nodup := (List.nodup_cons.mp hQN).2
  -- Step 1: the updated entries carry the in-degree formula for the new
  -- output list.
  have hE2 : (entries.map fun t => if current ∈ t.2.1 then (t.1, t.2.1, t.2.2 - 1) else t)
      = deps0.map (fun pr => (pr.1, pr.2,
          ((pr.2.filter (fun d => decide (d ∉ sorted ++ [current]))).length : Int))) := by
    rw [hE, List.map_map]
    apply List.map_congr_left
    intro pr hpr
    have hnd2 : pr.2.Nodup := hds pr hpr
    by_cases hcur : current ∈ pr.2
    · simp only [Function.comp_apply, if_pos hcur]
      have hfe : pr.2.filter (fun d => decide (d ∉ sorted ++ [current]))
          = (pr.2.filter (fun d => decide (d ∉ sorted))).filter
              (fun d => decide (d ≠ current)) := by
        rw [List.filter_filter]
        apply List.filter_congr
        intro d _
        rw [← Bool.decide_and]
        apply decide_eq_decide.mpr
        simp only [List.mem_append, List.mem_singleton]
        tauto
      have hmem1 : current ∈ pr.2.filter (fun d => decide (d ∉ sorted)) :=
        List.mem_filter.mpr ⟨hcur, by simpa using hcurS⟩
      have hnd1 : (pr.2.filter (fun d => decide (d ∉ sorted))).Nodup :=
        hnd2.filter _
      have hlen : (pr.2.filter (fun d => decide (d ∉ sorted ++ [current]))).length
          = (pr.2.filter (fun d => decide (d ∉ sorted))).length - 1 := by
        rw [hfe]
        have herase : (pr.2.filter (fun d => decide (d ∉ sorted))).filter
            (fun d => decide (d ≠ current))
            = (pr.2.filter (fun d => decide (d ∉ sorted))).erase current := by
          rw [List.Nodup.erase_eq_filter hnd1]
          apply List.filter_congr
          intro d _
          by_cases hdc : d = current <;> simp [hdc]
        rw [herase, List.length_erase_of_mem hmem1]
      have hge : 1 ≤ (pr.2.filter (fun d => decide (d ∉ sorted))).length :=
        List.length_pos.mpr (List.ne_nil_of_mem hmem1)
      refine congrArg (fun z => (pr.1, pr.2, z)) ?_
      rw [hlen]
      push_cast [hge]
      ring
    · simp only [Function.comp_apply, if_neg hcur]
      refine congrArg (fun z => (pr.1, pr.2, z)) ?_
      refine congrArg (fun l => ((List.length l : Int))) ?_
      apply List.filter_congr
      intro d hd
      apply decide_eq_decide.mpr
      have hdc : d ≠ current := fun he => hcur (he ▸ hd)
      simp only [List.mem_append, List.mem_singleton]
      tauto
  -- Dissection of membership in the ready batch.
  have hready_elim : ∀ v ∈ ((entries.map fun t =>
        if current ∈ t.2.1 then (t.1, t.2.1, t.2.2 - 1) else t).filter
          (fun t => decide (current ∈ t.2.1) && decide (t.2.2 = 0))).map Prod.fst,
      ∃ ds, (v, ds) ∈ deps0 ∧ current ∈ ds ∧ ∀ d ∈ ds, d ∈ sorted ++ [current] := by
    intro v hv
    rw [hE2] at hv
    simp only [List.mem_map, List.mem_filter, Bool.and_eq_true, decide_eq_true_eq] at hv
    obtain ⟨t, ⟨⟨pr, hpr, ht⟩, hq1, hq2⟩, hv1⟩ := hv
    rw [← ht] at hq1 hq2 hv1
    simp only at hq1 hq2 hv1
    refine ⟨pr.2, ?_, hq1, ?_⟩
    · rw [← hv1]
      exact (by simpa using hpr : (pr.1, pr.2) ∈ deps0)
    · intro d hd
      have hlen0 : (pr.2.filter (fun d => decide (d ∉ sorted ++ [current]))).length = 0 := by
        exact_mod_cast hq2
      have hnil := List.length_eq_zero.mp hlen0
      by_contra hd2
      have hmem : d ∈ pr.2.filter (fun d => decide (d ∉ sorted ++ [current])) :=
        List.mem_filter.mpr ⟨hd, by simpa using hd2⟩
      rw [hnil] at hmem
      simp at hmem
  have hready_not : ∀ v ∈ ((entries.map fun t =>
        if current ∈ t.2.1 then (t.1, t.2.1, t.2.2 - 1) else t).filter
          (fun t => decide (current ∈ t.2.1) && decide (t.2.2 = 0))).map Prod.fst,
      v ∉ sorted ∧ v ≠ current := by
    intro v hv
    obtain ⟨ds, hmemd, hcur2, _⟩ := hready_elim v hv
    constructor
    · intro hvs
      exact hcurS (hSD v hvs ds (lookup_of_mem_nodup hkeys hmemd) current hcur2)
    · intro hvc
      rw [hvc] at hmemd
      exact hcurS (hcurD ds (lookup_of_mem_nodup hkeys hmemd) current hcur2)
  refine ⟨hE2, ?_, ?_, ?_, ?_, ?_, ?_, ?_, ?_⟩
  · -- queue' disjoint from sorted'
    intro v hv
    simp only [List.mem_append, List.mem_singleton]
    rcases List.mem_append.mp hv with hr | hrd
    · push_neg
      exact ⟨hQS v (List.mem_cons_of_mem _ hr),
        fun he => hcur_rest (he ▸ hr)⟩
    · push_neg
      exact ⟨(hready_not v hrd).1, (hready_not v hrd).2⟩
  · -- queue' dependencies all emitted
    intro v hv ds hlk d hd
    rcases List.mem_append.mp hv with hr | hrd
    · exact List.mem_append.mpr (Or.inl (hQD v (List.mem_cons_of_mem _ hr) ds hlk d hd))
    · obtain ⟨ds2, hmemd, _, hsub⟩ := hready_elim v hrd
      have hdseq : ds = ds2 :=
        Option.some.inj (hlk.symm.trans (lookup_of_mem_nodup hkeys hmemd))
      exact hsub d (hdseq ▸ hd)
  · -- queue' members are keys
    intro v hv
    rcases List.mem_append.mp hv with hr | hrd
    · exact hQK v (List.mem_cons_of_mem _ hr)
    · obtain ⟨ds2, hmemd, _, _⟩ := hready_elim v hrd
      exact List.mem_map.mpr ⟨(v, ds2), hmemd, rfl⟩
  · -- queue' has no duplicates
    rw [List.nodup_append]
    refine ⟨hrestN, ?_, ?_⟩
    · have hfstE2 : ((entries.map fun t =>
          if current ∈ t.2.1 then (t.1, t.2.1, t.2.2 - 1) else t).map Prod.fst)
          = deps0.map Prod.fst := by
        rw [hE2, List.map_map]
        apply List.map_congr_left
        intro pr _
        rfl
      have hsub : List.Sublist (((entries.map fun t =>
            if current ∈ t.2.1 then (t.1, t.2.1, t.2.2 - 1) else t).filter
              (fun t => decide (current ∈ t.2.1) && decide (t.2.2 = 0))).map Prod.fst)
          ((entries.map fun t =>
            if current ∈ t.2.1 then (t.1, t.2.1, t.2.2 - 1) else t).map Prod.fst) :=
        (List.filter_sublist _).map Prod.fst
      rw [hfstE2] at hsub
      exact hkeys.sublist hsub
    · intro v hvr hvready
      obtain ⟨ds2, hmemd, hcur2, _⟩ := hready_elim v hvready
      exact hcurS (hQD v (List.mem_cons_of_mem _ hvr) ds2
        (lookup_of_mem_nodup hkeys hmemd) current hcur2)
  · -- sorted' has no duplicates
    simp [List.nodup_append, hSN, hcurS]
  · -- sorted' members are keys
    intro v hv
    rcases List.mem_append.mp hv with hs | hc2
    · exact hSK v hs
    · rw [List.mem_singleton.mp hc2]
      exact hcurK
  · -- sorted' members have all dependencies emitted
    intro v hv ds hlk d hd
    rcases List.mem_append.mp hv with hs | hc2
    · exact List.mem_append.mpr (Or.inl (hSD v hs ds hlk d hd))
    · rw [List.mem_singleton.mp hc2] at hlk
      exact List.mem_append.mpr (Or.inl (hcurD ds hlk d hd))
  · -- the cycle stays untouched
    intro m hm
    obtain ⟨hms, hmq⟩ := hB m hm
    have hmc : m ≠ current := fun he => hmq (he ▸ List.mem_cons_self _ _)
    have hmr : m ∉ rest := fun hr => hmq (List.mem_cons_of_mem _ hr)
    refine ⟨?_, ?_⟩
    · intro hms2
      rcases List.mem_append.mp hms2 with h | h
      · exact hms h
      · exact hmc (List.mem_singleton.mp h)
    · intro hmq2
      rcases List.mem_append.mp hmq2 with h | h
      · exact hmr h
      · obtain ⟨ds, hmemd, _, hsub⟩ := hready_elim m h
        obtain ⟨ds2, m2, hlk2, hm2ds, hm2c⟩ := isCycleIn_spec deps0 c hc m hm
        have hdseq : ds2 = ds :=
          Option.some.inj (hlk2.symm.trans (lookup_of_mem_nodup hkeys hmemd))
        have hm2s : m2 ∈ sorted ++ [current] := hsub m2 (hdseq ▸ hm2ds)
        obtain ⟨hm2so, hm2qu⟩ := hB m2 hm2c
        rcases List.mem_append.mp hm2s with h2 | h2
        · exact hm2so h2
        · exact hm2qu ((List.mem_singleton.mp h2) ▸ List.mem_cons_self _ _)

theorem kahnLoop_inv (deps0 : List (String × List String)) (c : List String)
    (hkeys : (deps0.map Prod.fst).Nodup) (hds : ∀ pr ∈ deps0, pr.2.Nodup)
    (hc : isCycleIn deps0 c = true) :
    ∀ (fuel : Nat) (entries : List (String × List String × Int))
      (queue sorted : List String),
      KahnInv deps0 c entries queue sorted →
      (kahnLoop fuel entries queue sorted).Nodup ∧
      (∀ v ∈ kahnLoop fuel entries queue sorted, v ∈ deps0.map Prod.fst) ∧
      (∀ m ∈ c, m ∉ kahnLoop fuel entries queue sorted) := by
  intro fuel
  induction fuel with
  | zero =>
    intro entries queue sorted hInv
    simp only [kahnLoop]
    exact ⟨hInv.2.2.2.2.2.1, hInv.2.2.2.2.2.2.1,
      fun m hm => (hInv.2.2.2.2.2.2.2.2 m hm).1⟩
  | succ fuel ih =>
    intro entries queue sorted hInv
    match queue with
    | [] =>
      simp only [kahnLoop]
      exact ⟨hInv.2.2.2.2.2.1, hInv.2.2.2.2.2.2.1,
        fun m hm => (hInv.2.2.2.2.2.2.2.2 m hm).1⟩
    | current :: rest =>
      simp only [kahnLoop]
      exact ih _ _ _ (kahnStep_inv deps0 c hkeys hds hc entries current rest sorted hInv)

theorem kahnInit_inv (deps0 : List (String × List String)) (c : List String)
    (hkeys : (deps0.map Prod.fst).Nodup) (hds : ∀ pr ∈ deps0, pr.2.Nodup)
    (hc : isCycleIn deps0 c = true) :
    KahnInv deps0 c (deps0.map fun pr => (pr.1, pr.2, (pr.2.length : Int)))
      (((deps0.map fun pr => (pr.1, pr.2, (pr.2.length : Int))).filter
        (fun t => decide (t.2.2 = 0))).map Prod.fst) [] := by
  have hzero_elim : ∀ v ∈ ((deps0.map fun pr => (pr.1, pr.2, (pr.2.length : Int))).filter
      (fun t => decide (t.2.2 = 0))).map Prod.fst,
      ∃ ds, (v, ds) ∈ deps0 ∧ ds = [] := by
    intro v hv
    simp only [List.mem_map, List.mem_filter, decide_eq_true_eq] at hv
    obtain ⟨t, ⟨⟨pr, hpr, ht⟩, hq⟩, hv1⟩ := hv
    rw [← ht] at hq hv1
    simp only at hq hv1
    have hlen0 : pr.2.length = 0 := by exact_mod_cast hq
    refine ⟨pr.2, ?_, List.length_eq_zero.mp hlen0⟩
    rw [← hv1]
    exact (by simpa using hpr : (pr.1, pr.2) ∈ deps0)
  refine ⟨?_, ?_, ?_, ?_, ?_, ?_, ?_, ?_, ?_⟩
  · apply List.map_congr_left
    intro pr _
    have : pr.2.filter (fun d => decide (d ∉ ([] : List String))) = pr.2 := by
      apply List.filter_eq_self.mpr
      intro d _
      simp
    rw [this]
  · intro v _
    simp
  · intro v hv ds hlk d hd
    obtain ⟨ds2, hmemd, hnil⟩ := hzero_elim v hv
    have hdseq : ds = ds2 :=
      Option.some.inj (hlk.symm.trans (lookup_of_mem_nodup hkeys hmemd))
    rw [hdseq, hnil] at hd
    simp at hd
  · intro v hv
    obtain ⟨ds2, hmemd, _⟩ := hzero_elim v hv
    exact List.mem_map.mpr ⟨(v, ds2), hmemd, rfl⟩
  · have hfst : ((deps0.map fun pr => (pr.1, pr.2, (pr.2.length : Int))).map Prod.fst)
        = deps0.map Prod.fst := by
      rw [List.map_map]
      apply List.map_congr_left
      intro pr _
      rfl
    have hsub : List.Sublist (((deps0.map fun pr =>
          (pr.1, pr.2, (pr.2.length : Int))).filter
            (fun t => decide (t.2.2 = 0))).map Prod.fst)
        ((deps0.map fun pr => (pr.1, pr.2, (pr.2.length : Int))).map Prod.fst) :=
      (List.filter_sublist _).map Prod.fst
    rw [hfst] at hsub
    exact hkeys.sublist hsub
  · exact List.nodup_nil
  · intro v hv
    simp at hv
  · intro v hv
    simp at hv
  · intro m hm
    refine ⟨by simp, ?_⟩
    intro hmq
    obtain ⟨ds2, hmemd, hnil⟩ := hzero_elim m hmq
    obtain ⟨ds3, m2, hlk3, hm2ds, _⟩ := isCycleIn_spec deps0 c hc m hm
    have hdseq : ds3 = ds2 :=
      Option.some.inj (hlk3.symm.trans (lookup_of_mem_nodup hkeys hmemd))
    rw [hdseq, hnil] at hm2ds
    simp at hm2ds

/-- C7: the strict Kahn topological sort of the assignment-rule processor
raises a circular-dependency `ValueError` naming the unprocessed variables
whenever the dependency graph contains a cycle among the rule variables — it
never emits the rules in some order; moreover the full
`sort_assignment_rules` pipeline on the concrete circular rule set
`V1 = V2 + k1`, `V2 = V1 + k2` raises that error naming both variables. -/
theorem C7_strict_toposort_cycle (deps : List (String × List String)) (c : List String)
    (hkeys : (deps.map Prod.fst).Nodup) (hds : ∀ pr ∈ deps, pr.2.Nodup)
    (hc : isCycleIn deps c = true) :
    (∃ unprocessed, ap_topological_sort deps = .error unprocessed ∧
      ∀ m ∈ c, m ∈ unprocessed) ∧
    sort_assignment_rules cycParse cycARules = .error ["V1", "V2"] := by
  constructor
  · have hinit := kahnInit_inv deps c hkeys hds hc
    have hloop := kahnLoop_inv deps c hkeys hds hc (deps.length + 1) _ _ _ hinit
    obtain ⟨hN, hK, hC⟩ := hloop
    have hcne : c ≠ [] := by
      intro he
      rw [he] at hc
      simp [isCycleIn] at hc
    obtain ⟨m, hm⟩ := List.exists_mem_of_ne_nil c hcne
    obtain ⟨ds, m2, hlk, _, _⟩ := isCycleIn_spec deps c hc m hm
    have hmK : m ∈ deps.map Prod.fst :=
      List.mem_map.mpr ⟨(m, ds), mem_of_lookup hlk, rfl⟩
    have hmnot : m ∉ kahnLoop (deps.length + 1)
        (deps.map fun pr => (pr.1, pr.2, (pr.2.length : Int)))
        (((deps.map fun pr => (pr.1, pr.2, (pr.2.length : Int))).filter
          (fun t => decide (t.2.2 = 0))).map Prod.fst) [] := hC m hm
    have hlt : (kahnLoop (deps.length + 1)
        (deps.map fun pr => (pr.1, pr.2, (pr.2.length : Int)))
        (((deps.map fun pr => (pr.1, pr.2, (pr.2.length : Int))).filter
          (fun t => decide (t.2.2 = 0))).map Prod.fst) []).length < deps.length := by
      have hsubset : kahnLoop (deps.length + 1)
          (deps.map fun pr => (pr.1, pr.2, (pr.2.length : Int)))
          (((deps.map fun pr => (pr.1, pr.2, (pr.2.length : Int))).filter
            (fun t => decide (t.2.2 = 0))).map Prod.fst) []
          ⊆ (deps.map Prod.fst).erase m := by
        intro v hv
        rcases eq_or_ne v m with rfl | hvm
        · exact absurd hv hmnot
        · exact (List.mem_erase_of_ne hvm).mpr (hK v hv)
      have hsp := (hN.subperm hsubset).length_le
      have herlen : ((deps.map Prod.fst).erase m).length
          = (deps.map Prod.fst).length - 1 := List.length_erase_of_mem hmK
      have hpos : 0 < (deps.map Prod.fst).length := List.length_pos.mpr
        (List.ne_nil_of_mem hmK)
      rw [herlen, List.length_map] at hsp
      rw [List.length_map] at hpos
      omega
    refine ⟨(deps.map Prod.fst).filter (fun v => decide (v ∉ kahnLoop (deps.length + 1)
        (deps.map fun pr => (pr.1, pr.2, (pr.2.length : Int)))
        (((deps.map fun pr => (pr.1, pr.2, (pr.2.length : Int))).filter
          (fun t => decide (t.2.2 = 0))).map Prod.fst) [])), ?_, ?_⟩
    · show ap_topological_sort deps = _
      unfold ap_topological_sort
      rw [if_pos (Nat.ne_of_lt hlt)]
    · intro m3 hm3
      apply List.mem_filter.mpr
      obtain ⟨ds3, m4, hlk3, _, _⟩ := isCycleIn_spec deps c hc m3 hm3
      refine ⟨List.mem_map.mpr ⟨(m3, ds3), mem_of_lookup hlk3, rfl⟩, ?_⟩
      simpa using hC m3 hm3
  · rfl

/-- Witness for C7 at the two-variable cycle `V1 -> V2 -> V1`. -/
theorem C7_witness :
    (∃ unprocessed, ap_topological_sort [("V1", ["V2"]), ("V2", ["V1"])]
        = .error unprocessed ∧ ∀ m ∈ ["V1", "V2"], m ∈ unprocessed) ∧
    sort_assignment_rules cycParse cycARules = .error ["V1", "V2"] :=
  C7_strict_toposort_cycle [("V1", ["V2"]), ("V2", ["V1"])] ["V1", "V2"]
    (by decide) (by decide) (by decide)

/-! ## C5: the lenient classifier terminates and classifies every rule -/

theorem filter_insert_perm (rules : List (String × Expr))
    (hnd : (rules.map Prod.fst).Nodup) (r : String × Expr) (hr : r ∈ rules)
    (cl : List String) (hne : r.1 ∉ cl) :
    (rules.filter (fun x => decide (x.1 ∈ cl ++ [r.1]))).Perm
      ((rules.filter (fun x => decide (x.1 ∈ cl))) ++ [r]) := by
  induction rules with
  | nil => simp at hr
  | cons a rest ih =>
    simp only [List.map_cons, List.nodup_cons] at hnd
    rcases List.mem_cons.mp hr with heq | htl
    · have hafst : a.1 ∉ rest.map Prod.fst := by
        rw [← heq]; exact heq ▸ hnd.1
      have hfeq : rest.filter (fun x => decide (x.1 ∈ cl ++ [r.1]))
          = rest.filter (fun x => decide (x.1 ∈ cl)) := by
        apply List.filter_congr
        intro x hx
        apply decide_eq_decide.mpr
        have hxr : x.1 ≠ r.1 := by
          intro he
          apply hafst
          rw [← heq, ← he]
          exact List.mem_map.mpr ⟨x, hx, rfl⟩
        simp only [List.mem_append, List.mem_singleton]
        constructor
        · rintro (h | h)
          · exact h
          · exact absurd h hxr
        · exact Or.inl
      have hina : (a.1 ∈ cl ++ [r.1]) := by
        rw [← heq]
        simp
      have hnota : ¬(a.1 ∈ cl) := by
        rw [← heq]; exact hne
      simp only [List.filter_cons, decide_eq_true_eq, if_pos hina, if_neg hnota, hfeq]
      rw [← heq]
      exact (List.perm_append_singleton _ _).symm
    · have hafst : a.1 ≠ r.1 := by
        intro he
        apply hnd.1
        rw [he]
        exact List.mem_map.mpr ⟨r, htl, rfl⟩
      have hamem : (a.1 ∈ cl ++ [r.1]) ↔ (a.1 ∈ cl) := by
        simp only [List.mem_append, List.mem_singleton]
        constructor
        · rintro (h | h)
          · exact h
          · exact absurd h hafst
        · exact Or.inl
      by_cases hacl : a.1 ∈ cl
      · simp only [List.filter_cons, decide_eq_true_eq, if_pos (hamem.mpr hacl),
          if_pos hacl]
        exact (ih hnd.2 htl).cons a
      · simp only [List.filter_cons, decide_eq_true_eq,
          if_neg (fun h => hacl (hamem.mp h)), if_neg hacl]
        exact ih hnd.2 htl

theorem classifyPassGo_inv (rules : List (String × Expr))
    (hnd : (rules.map Prod.fst).Nodup) (ruleKeys : List String) :
    ∀ (todo : List (String × Expr)) (st : CState) (prog : Bool),
      (∀ x ∈ todo, x ∈ rules) → ClassInv rules st →
      ClassInv rules (classifyPassGo ruleKeys todo st prog).1 := by
  intro todo
  induction todo with
  | nil => intro st prog _ hInv; exact hInv
  | cons hd tl ih =>
    intro st prog htodo hInv
    obtain ⟨var, expr⟩ := hd
    obtain ⟨hN, hK, hP⟩ := hInv
    have hhd : (var, expr) ∈ rules := htodo (var, expr) (List.mem_cons_self _ _)
    have htl : ∀ x ∈ tl, x ∈ rules := fun x hx => htodo x (List.mem_cons_of_mem _ hx)
    by_cases hcl : var ∈ st.classified
    · simp only [classifyPassGo, if_pos hcl]
      exact ih st prog htl ⟨hN, hK, hP⟩
    · have hinv2 : ∀ sl dl sv dv, (sl ++ dl).Perm
          (rules.filter (fun r => decide (r.1 ∈ st.classified ++ [var]))) →
          ClassInv rules ⟨st.classified ++ [var], sl, dl, sv, dv⟩ := by
        intro sl dl sv dv hperm
        refine ⟨?_, ?_, hperm⟩
        · simp [List.nodup_append, hN, hcl]
        · intro v hv
          rcases List.mem_append.mp hv with h | h
          · exact hK v h
          · rw [List.mem_singleton.mp h]
            exact List.mem_map.mpr ⟨(var, expr), hhd, rfl⟩
      have hperm2 : ((st.static_list ++ (st.dynamic_list ++ [(var, expr)]))).Perm
          (rules.filter (fun r => decide (r.1 ∈ st.classified ++ [var]))) := by
        have h1 := filter_insert_perm rules hnd (var, expr) hhd st.classified hcl
        refine List.Perm.trans ?_ h1.symm
        have h4 : st.static_list ++ (st.dynamic_list ++ [(var, expr)])
            = (st.static_list ++ st.dynamic_list) ++ [(var, expr)] :=
          (List.append_assoc _ _ _).symm
        rw [h4]
        exact hP.append_right _
      have hperm3 : (((st.static_list ++ [(var, expr)]) ++ st.dynamic_list)).Perm
          (rules.filter (fun r => decide (r.1 ∈ st.classified ++ [var]))) := by
        have h1 := filter_insert_perm rules hnd (var, expr) hhd st.classified hcl
        refine List.Perm.trans ?_ h1.symm
        have h2 : ((st.static_list ++ [(var, expr)]) ++ st.dynamic_list)
            = st.static_list ++ ((var, expr) :: st.dynamic_list) := by
          rw [List.append_assoc]
          rfl
        have h3 : (st.static_list ++ ((var, expr) :: st.dynamic_list)).Perm
            (st.static_list ++ (st.dynamic_list ++ [(var, expr)])) :=
          List.Perm.append_left _ (List.perm_append_singleton _ _).symm
        have h4 : st.static_list ++ (st.dynamic_list ++ [(var, expr)])
            = (st.static_list ++ st.dynamic_list) ++ [(var, expr)] :=
          (List.append_assoc _ _ _).symm
        rw [h2]
        refine h3.trans ?_
        rw [h4]
        exact hP.append_right _
      simp only [classifyPassGo, if_neg hcl]
      cases checkSymbols ruleKeys st.static_vars st.dynamic_vars st.classified
          (freeSyms expr) with
      | dynamic =>
        refine ih _ true htl ?_
        exact hinv2 st.static_list (st.dynamic_list ++ [(var, expr)])
          st.static_vars (st.dynamic_vars ++ [var]) hperm2
      | staticOk =>
        refine ih _ true htl ?_
        exact hinv2 (st.static_list ++ [(var, expr)]) st.dynamic_list
          (st.static_vars ++ [var]) st.dynamic_vars hperm3
      | deferred => exact ih st prog htl ⟨hN, hK, hP⟩

theorem classifyPassGo_length (ruleKeys : List String) :
    ∀ (todo : List (String × Expr)) (st : CState) (prog : Bool),
      st.classified.length ≤ (classifyPassGo ruleKeys todo st prog).1.classified.length := by
  intro todo
  induction todo with
  | nil => intro st prog; exact le_refl _
  | cons hd tl ih =>
    intro st prog
    obtain ⟨var, expr⟩ := hd
    by_cases hcl : var ∈ st.classified
    · simp only [classifyPassGo, if_pos hcl]
      exact ih st prog
    · simp only [classifyPassGo, if_neg hcl]
      cases checkSymbols ruleKeys st.static_vars st.dynamic_vars st.classified
          (freeSyms expr) with
      | dynamic =>
        refine le_trans ?_ (ih _ true)
        simp
      | staticOk =>
        refine le_trans ?_ (ih _ true)
        simp
      | deferred => exact ih st prog

theorem classifyPassGo_flagtrue (ruleKeys : List String) :
    ∀ (todo : List (String × Expr)) (st : CState),
      (classifyPassGo ruleKeys todo st true).2 = true := by
  intro todo
  induction todo with
  | nil => intro st; rfl
  | cons hd tl ih =>
    intro st
    obtain ⟨var, expr⟩ := hd
    by_cases hcl : var ∈ st.classified
    · simp only [classifyPassGo, if_pos hcl]
      exact ih st
    · simp only [classifyPassGo, if_neg hcl]
      cases checkSymbols ruleKeys st.static_vars st.dynamic_vars st.classified
          (freeSyms expr) with
      | dynamic => exact ih _
      | staticOk => exact ih _
      | deferred => exact ih st

theorem classifyPassGo_noprogress (ruleKeys : List String) :
    ∀ (todo : List (String × Expr)) (st : CState),
      (classifyPassGo ruleKeys todo st false).2 = false →
      (classifyPassGo ruleKeys todo st false).1 = st := by
  intro todo
  induction todo with
  | nil => intro st _; rfl
  | cons hd tl ih =>
    intro st hfalse
    obtain ⟨var, expr⟩ := hd
    by_cases hcl : var ∈ st.classified
    · simp only [classifyPassGo, if_pos hcl] at hfalse ⊢
      exact ih st hfalse
    · simp only [classifyPassGo, if_neg hcl] at hfalse ⊢
      cases hch : checkSymbols ruleKeys st.static_vars st.dynamic_vars st.classified
          (freeSyms expr) with
      | dynamic =>
        rw [hch] at hfalse
        have hflag := classifyPassGo_flagtrue ruleKeys tl
          ⟨st.classified ++ [var], st.static_list, st.dynamic_list ++ [(var, expr)],
           st.static_vars, st.dynamic_vars ++ [var]⟩
        exact Bool.noConfusion (hflag.symm.trans hfalse)
      | staticOk =>
        rw [hch] at hfalse
        have hflag := classifyPassGo_flagtrue ruleKeys tl
          ⟨st.classified ++ [var], st.static_list ++ [(var, expr)], st.dynamic_list,
           st.static_vars ++ [var], st.dynamic_vars⟩
        exact Bool.noConfusion (hflag.symm.trans hfalse)
      | deferred =>
        rw [hch] at hfalse
        exact ih st hfalse

theorem classifyPassGo_progress_length (ruleKeys : List String) :
    ∀ (todo : List (String × Expr)) (st : CState),
      (classifyPassGo ruleKeys todo st false).2 = true →
      st.classified.length < (classifyPassGo ruleKeys todo st false).1.classified.length := by
  intro todo
  induction todo with
  | nil => intro st h; simp [classifyPassGo] at h
  | cons hd tl ih =>
    intro st htrue
    obtain ⟨var, expr⟩ := hd
    by_cases hcl : var ∈ st.classified
    · simp only [classifyPassGo, if_pos hcl] at htrue ⊢
      exact ih st htrue
    · simp only [classifyPassGo, if_neg hcl] at htrue ⊢
      cases hch : checkSymbols ruleKeys st.static_vars st.dynamic_vars st.classified
          (freeSyms expr) with
      | dynamic =>
        refine lt_of_lt_of_le ?_ (classifyPassGo_length ruleKeys tl _ true)
        simp
      | staticOk =>
        refine lt_of_lt_of_le ?_ (classifyPassGo_length ruleKeys tl _ true)
        simp
      | deferred =>
        rw [hch] at htrue
        exact ih st htrue

theorem forceDynamic_classified_mono :
    ∀ (todo : List (String × Expr)) (st : CState) (v : String),
      v ∈ st.classified → v ∈ (forceDynamic todo st).classified := by
  intro todo
  induction todo with
  | nil => intro st v hv; exact hv
  | cons hd tl ih =>
    intro st v hv
    obtain ⟨var, expr⟩ := hd
    by_cases hcl : var ∈ st.classified
    · simp only [forceDynamic, if_pos hcl]
      exact ih st v hv
    · simp only [forceDynamic, if_neg hcl]
      exact ih _ v (List.mem_append.mpr (Or.inl hv))

theorem forceDynamic_complete :
    ∀ (todo : List (String × Expr)) (st : CState) (x : String × Expr),
      x ∈ todo → x.1 ∈ (forceDynamic todo st).classified := by
  intro todo
  induction todo with
  | nil => intro st x hx; simp at hx
  | cons hd tl ih =>
    intro st x hx
    obtain ⟨var, expr⟩ := hd
    rcases List.mem_cons.mp hx with heq | htl
    · by_cases hcl : var ∈ st.classified
      · simp only [forceDynamic, if_pos hcl]
        apply forceDynamic_classified_mono
        rw [heq]
        exact hcl
      · simp only [forceDynamic, if_neg hcl]
        apply forceDynamic_classified_mono
        rw [heq]
        simp
    · by_cases hcl : var ∈ st.classified
      · simp only [forceDynamic, if_pos hcl]
        exact ih st x htl
      · simp only [forceDynamic, if_neg hcl]
        exact ih _ x htl

theorem forceDynamic_inv (rules : List (String × Expr))
    (hnd : (rules.map Prod.fst).Nodup) :
    ∀ (todo : List (String × Expr)) (st : CState),
      (∀ x ∈ todo, x ∈ rules) → ClassInv rules st →
      ClassInv rules (forceDynamic todo st) := by
  intro todo
  induction todo with
  | nil => intro st _ hInv; exact hInv
  | cons hd tl ih =>
    intro st htodo hInv
    obtain ⟨var, expr⟩ := hd
    obtain ⟨hN, hK, hP⟩ := hInv
    have hhd : (var, expr) ∈ rules := htodo (var, expr) (List.mem_cons_self _ _)
    have htl : ∀ x ∈ tl, x ∈ rules := fun x hx => htodo x (List.mem_cons_of_mem _ hx)
    by_cases hcl : var ∈ st.classified
    · simp only [forceDynamic, if_pos hcl]
      exact ih st htl ⟨hN, hK, hP⟩
    · simp only [forceDynamic, if_neg hcl]
      refine ih _ htl ⟨?_, ?_, ?_⟩
      · simp [List.nodup_append, hN, hcl]
      · intro v hv
        rcases List.mem_append.mp hv with h | h
        · exact hK v h
        · rw [List.mem_singleton.mp h]
          exact List.mem_map.mpr ⟨(var, expr), hhd, rfl⟩
      · have h1 := filter_insert_perm rules hnd (var, expr) hhd st.classified hcl
        refine List.Perm.trans ?_ h1.symm
        have h4 : st.static_list ++ (st.dynamic_list ++ [(var, expr)])
            = (st.static_list ++ st.dynamic_list) ++ [(var, expr)] :=
          (List.append_assoc _ _ _).symm
        show (st.static_list ++ (st.dynamic_list ++ [(var, expr)])).Perm _
        rw [h4]
        exact hP.append_right _

theorem nodup_subset_complete {l1 l2 : List String} (h1 : l1.Nodup) (hsub : l1 ⊆ l2)
    (h2 : l2.Nodup) (hlen : l2.length ≤ l1.length) : ∀ x ∈ l2, x ∈ l1 := by
  have hsp : List.Subperm l1 l2 := h1.subperm hsub
  have hperm : l1.Perm l2 := hsp.perm_of_length_le hlen
  intro x hx
  exact hperm.mem_iff.mpr hx

theorem classifyLoop_inv (rules : List (String × Expr))
    (hnd : (rules.map Prod.fst).Nodup) (ruleKeys : List String) :
    ∀ (fuel : Nat) (st : CState), ClassInv rules st →
      rules.length ≤ fuel + st.classified.length →
      ClassInv rules (classifyLoop ruleKeys rules fuel st) ∧
      ∀ x ∈ rules, x.1 ∈ (classifyLoop ruleKeys rules fuel st).classified := by
  intro fuel
  induction fuel with
  | zero =>
    intro st hInv hlen
    simp only [classifyLoop]
    refine ⟨hInv, ?_⟩
    intro x hx
    have hcomplete := nodup_subset_complete hInv.1 hInv.2.1 hnd
      (by rw [List.length_map]; omega)
    exact hcomplete x.1 (List.mem_map.mpr ⟨x, hx, rfl⟩)
  | succ fuel ih =>
    intro st hInv hlen
    by_cases hshort : st.classified.length < rules.length
    · simp only [classifyLoop, if_pos hshort]
      cases hflag : (classifyPassGo ruleKeys rules st false).2 with
      | false =>
        have hst : (classifyPassGo ruleKeys rules st false).1 = st :=
          classifyPassGo_noprogress ruleKeys rules st hflag
        rw [if_pos (And.intro rfl (by rw [hst]; exact hshort))]
        rw [hst]
        refine ⟨forceDynamic_inv rules hnd rules st (fun x hx => hx) hInv, ?_⟩
        intro x hx
        exact forceDynamic_complete rules st x hx
      | true =>
        rw [if_neg (fun hcon => Bool.noConfusion hcon.1)]
        have hgrow := classifyPassGo_progress_length ruleKeys rules st hflag
        refine ih (classifyPassGo ruleKeys rules st false).1
          (classifyPassGo_inv rules hnd ruleKeys rules st false (fun x hx => hx) hInv)
          (by omega)
    · simp only [classifyLoop, if_neg hshort]
      refine ⟨hInv, ?_⟩
      intro x hx
      have hcomplete := nodup_subset_complete hInv.1 hInv.2.1 hnd
        (by rw [List.length_map]; omega)
      exact hcomplete x.1 (List.mem_map.mpr ⟨x, hx, rfl⟩)

theorem daTopoLoop_perm (depsMap : List (String × List String)) :
    ∀ (fuel : Nat) (remaining sorted : List (String × Expr)) (defined : List String),
      remaining.length < fuel →
      ((daTopoLoop depsMap fuel remaining sorted defined).1).Perm (sorted ++ remaining) := by
  intro fuel
  induction fuel with
  | zero => intro remaining sorted defined h; omega
  | succ fuel ih =>
    intro remaining sorted defined hlt
    match remaining with
    | [] => simp [daTopoLoop]
    | r :: rest =>
      simp only [daTopoLoop]
      by_cases hready : ((r :: rest).filter fun ve =>
          ((depsMap.lookup ve.1).getD []).all fun d => decide (d ∈ defined)).isEmpty
      · rw [if_pos hready]
      · rw [if_neg hready]
        have hpart := List.filter_append_perm (fun ve =>
          ((depsMap.lookup ve.1).getD []).all fun d => decide (d ∈ defined)) (r :: rest)
        have hlenpart : ((r :: rest).filter fun ve =>
            ((depsMap.lookup ve.1).getD []).all fun d => decide (d ∈ defined)).length +
            ((r :: rest).filter fun ve => !(((depsMap.lookup ve.1).getD []).all
              fun d => decide (d ∈ defined))).length = (r :: rest).length := by
          have := hpart.length_eq
          simpa using this
        have hpos : 0 < ((r :: rest).filter fun ve =>
            ((depsMap.lookup ve.1).getD []).all fun d => decide (d ∈ defined)).length := by
          apply List.length_pos.mpr
          intro hemp
          rw [hemp] at hready
          simp at hready
        have hrec := ih ((r :: rest).filter fun ve => !(((depsMap.lookup ve.1).getD []).all
            fun d => decide (d ∈ defined)))
          (sorted ++ ((r :: rest).filter fun ve =>
            ((depsMap.lookup ve.1).getD []).all fun d => decide (d ∈ defined)))
          (defined ++ (((r :: rest).filter fun ve =>
            ((depsMap.lookup ve.1).getD []).all fun d => decide (d ∈ defined)).map Prod.fst))
          (by simp only [List.length_cons] at hlenpart hlt; omega)
        refine hrec.trans ?_
        rw [List.append_assoc]
        exact hpart.append_left sorted

/-- C5: for every rule set with distinct rule variables, the lenient
classifier's fixed-point classification (bounded by `ruleCount + 1` passes)
terminates without raising and classifies every rule: the static and dynamic
buckets together are a permutation of the input rules (rules left
unclassifiable by circular dependency having been force-classified as
dynamic).  On the concrete mutually circular pair `V1 = V2 + k1`,
`V2 = V1 + k2` the classifier returns both rules in the dynamic bucket. -/
theorem C5_classifier_total (species params : List String)
    (rules : List (String × Expr)) (ext : List String)
    (hnd : (rules.map Prod.fst).Nodup) :
    (((classify_rules species params rules ext).1 ++
      (classify_rules species params rules ext).2).Perm rules) ∧
    classify_rules [] ["k1", "k2"] circularRules [] = ([], circularRules) := by
  constructor
  · have hinit : ClassInv rules
        ⟨[], [], [], params, species ++ ["t", "time"] ++ ext⟩ := by
      refine ⟨List.nodup_nil, by simp, ?_⟩
      have : rules.filter (fun r => decide (r.1 ∈ ([] : List String))) = [] := by
        apply List.filter_eq_nil.mpr
        intro a _
        simp
      rw [this]
      simp
    obtain ⟨hInv, hcomp⟩ := classifyLoop_inv rules hnd (rules.map Prod.fst)
      (rules.length + 1) _ hinit (by omega)
    have hfilter : rules.filter (fun r => decide (r.1 ∈
        (classifyCore species params rules ext).classified)) = rules := by
      apply List.filter_eq_self.mpr
      intro a ha
      exact decide_eq_true (hcomp a ha)
    have hpm : ((classifyCore species params rules ext).static_list ++
        (classifyCore species params rules ext).dynamic_list).Perm rules := by
      have h5 := hInv.2.2
      rw [show (classifyLoop (rules.map Prod.fst) rules (rules.length + 1)
          ⟨[], [], [], params, species ++ ["t", "time"] ++ ext⟩)
        = classifyCore species params rules ext from rfl] at h5
      rw [hfilter] at h5
      exact h5
    have hsort : ((classify_rules species params rules ext).1).Perm
        ((classifyCore species params rules ext).static_list) := by
      show ((daTopoLoop _ ((classifyCore species params rules ext).static_list.length + 1)
        (classifyCore species params rules ext).static_list [] params).1).Perm _
      have := daTopoLoop_perm (classifyStaticDeps (rules.map Prod.fst)
          (classifyCore species params rules ext).static_vars
          (classifyCore species params rules ext).static_list)
        ((classifyCore species params rules ext).static_list.length + 1)
        (classifyCore species params rules ext).static_list [] params (by omega)
      simpa using this
    show ((classify_rules species params rules ext).1 ++
      (classifyCore species params rules ext).dynamic_list).Perm rules
    exact (hsort.append_right _).trans hpm
  · rfl

/-- Witness for C5 at the circular two-rule set. -/
theorem C5_witness :
    (((classify_rules [] ["k1", "k2"] circularRules []).1 ++
      (classify_rules [] ["k1", "k2"] circularRules []).2).Perm circularRules) :=
  (C5_classifier_total [] ["k1", "k2"] circularRules [] (by decide)).1

/-! ## C6: the static list is a valid topological order -/

theorem daTopoLoop_ordered (param_ids : List String)
    (depsMap : List (String × List String)) :
    ∀ (fuel : Nat) (remaining sorted : List (String × Expr)) (defined : List String),
      (∀ x, x ∈ defined ↔ (x ∈ param_ids ∨ x ∈ sorted.map Prod.fst)) →
      TopoOrdered param_ids depsMap sorted →
      (daTopoLoop depsMap fuel remaining sorted defined).2 = true →
      TopoOrdered param_ids depsMap (daTopoLoop depsMap fuel remaining sorted defined).1 := by
  intro fuel
  induction fuel with
  | zero =>
    intro remaining sorted defined _ hord _
    exact hord
  | succ fuel ih =>
    intro remaining sorted defined hdef hord hflag
    match remaining with
    | [] => exact hord
    | r :: rest =>
      simp only [daTopoLoop] at hflag ⊢
      by_cases hready : ((r :: rest).filter fun ve =>
          ((depsMap.lookup ve.1).getD []).all fun d => decide (d ∈ defined)).isEmpty
      · rw [if_pos hready] at hflag ⊢
        exact absurd hflag (by simp)
      · rw [if_neg hready] at hflag ⊢
        have hreadyP : ∀ x ∈ ((r :: rest).filter fun ve =>
            ((depsMap.lookup ve.1).getD []).all fun d => decide (d ∈ defined)),
            ∀ u ∈ (depsMap.lookup x.1).getD [], u ∈ defined := by
          intro x hx u hu
          have hp := (List.mem_filter.mp hx).2
          rw [List.all_eq_true] at hp
          have := hp u hu
          exact of_decide_eq_true this
        refine ih _ _ _ ?_ ?_ hflag
        · intro x
          simp only [List.mem_append, List.map_append, hdef]
          tauto
        · -- orderedness of sorted ++ ready
          intro i hi u hu
          rcases Nat.lt_or_ge i sorted.length with hlt | hge
          · have hget : ((sorted ++ ((r :: rest).filter fun ve =>
                ((depsMap.lookup ve.1).getD []).all fun d => decide (d ∈ defined))).get
                  ⟨i, hi⟩) = sorted.get ⟨i, hlt⟩ := by
              rw [List.get_eq_getElem, List.get_eq_getElem, List.getElem_append_left]
            rw [hget] at hu
            have htake : ((sorted ++ ((r :: rest).filter fun ve =>
                ((depsMap.lookup ve.1).getD []).all fun d => decide (d ∈ defined))).take i)
                = sorted.take i := List.take_append_of_le_length (le_of_lt hlt)
            rw [htake]
            exact hord i hlt u hu
          · have hget : ((sorted ++ ((r :: rest).filter fun ve =>
                ((depsMap.lookup ve.1).getD []).all fun d => decide (d ∈ defined))).get
                  ⟨i, hi⟩) = ((r :: rest).filter fun ve =>
                ((depsMap.lookup ve.1).getD []).all fun d => decide (d ∈ defined)).get
                  ⟨i - sorted.length, by
                    have := hi
                    rw [List.length_append] at this
                    omega⟩ := by
              rw [List.get_eq_getElem, List.get_eq_getElem, List.getElem_append_right hge]
            rw [hget] at hu
            have hmemready := List.get_mem ((r :: rest).filter fun ve =>
                ((depsMap.lookup ve.1).getD []).all fun d => decide (d ∈ defined))
              (i - sorted.length) (by
                have := hi
                rw [List.length_append] at this
                omega)
            have hdefs := hreadyP _ hmemready u hu
            rcases (hdef u).mp hdefs with hp | hs
            · exact Or.inl hp
            · refine Or.inr ?_
              have htake : ((sorted ++ ((r :: rest).filter fun ve =>
                  ((depsMap.lookup ve.1).getD []).all fun d => decide (d ∈ defined))).take i)
                  = sorted ++ (((r :: rest).filter fun ve =>
                    ((depsMap.lookup ve.1).getD []).all
                      fun d => decide (d ∈ defined)).take (i - sorted.length)) := by
                rw [List.take_append_eq_append_take, List.take_of_length_le hge]
              rw [htake, List.map_append]
              exact List.mem_append.mpr (Or.inl hs)

theorem classifyStaticDeps_mem_keys (ruleKeys static_vars : List String)
    (static_list : List (String × Expr)) (v u : String) (ds : List String)
    (hlk : (classifyStaticDeps ruleKeys static_vars static_list).lookup v = some ds)
    (hu : u ∈ ds) : u ∈ ruleKeys ∧ u ∈ static_vars := by
  have hmem := mem_of_lookup hlk
  rw [classifyStaticDeps] at hmem
  obtain ⟨ve, hve, heq⟩ := List.mem_map.mp hmem
  have hds : ((freeSyms ve.2).filter fun s =>
      decide (s ∈ ruleKeys ∧ s ∈ static_vars)).dedup = ds := by
    have := congrArg Prod.snd heq
    simpa using this
  rw [← hds] at hu
  have hfu := List.mem_filter.mp (List.mem_dedup.mp hu)
  exact of_decide_eq_true hfu.2

/-- **C6 (counterexample).** The static list need not place every dependency
strictly before its dependent: `_topological_sort` seeds its `defined` set
with the parameter ids, so a dependency that collides with a parameter id
counts as defined before it is ever emitted.  For `U = k1`, `V = U + k2`,
`D = V + k3` classified with `V` also a parameter id, the sort completes
without the declaration-order fallback, `V` is the recorded dependency of the
rule `D` sitting at position 1, yet `V` is not among the rules preceding
position 1 (the returned order is `U, D, V`). -/
theorem C6_counterexample :
    classifySortCompleted [] ["k1", "k2", "k3", "V"] shadowRules [] = true ∧
    ((classify_rules [] ["k1", "k2", "k3", "V"] shadowRules []).1.getD 1 ("", .boolT)).1
      = "D" ∧
    "V" ∈ ((classifyDeps [] ["k1", "k2", "k3", "V"] shadowRules []).lookup "D").getD [] ∧
    "V" ∉ ((classify_rules [] ["k1", "k2", "k3", "V"] shadowRules []).1.take 1).map
      Prod.fst := by
  decide

/-- **C6 (amended).** Whenever the static subset has no residual dependency
cycle (the sort completed without the declaration-order fallback), the static
list returned by `classify_rules` is topologically ordered relative to the
initially-defined parameter ids: every dependency recorded for the rule at
position `i` is a parameter id (seeded as already defined, shadowing any
same-named rule, as the counterexample shows) or appears among the first `i`
rules, so each emitted assignment refers only to parameters and previously
emitted rules. -/
theorem C6_static_topological_order
    (species_ids param_ids external_dynamic : List String)
    (rules : List (String × Expr))
    (hOK : classifySortCompleted species_ids param_ids rules external_dynamic = true) :
    ∀ i, (h : i < ((classify_rules species_ids param_ids rules external_dynamic).1).length) →
      ∀ u ∈ ((classifyDeps species_ids param_ids rules external_dynamic).lookup
          (((classify_rules species_ids param_ids rules external_dynamic).1).get ⟨i, h⟩).1).getD
            [],
        u ∈ param_ids ∨
          u ∈ (((classify_rules species_ids param_ids rules external_dynamic).1).take i).map
            Prod.fst := by
  intro i h u hu
  have htopo := daTopoLoop_ordered param_ids
      (classifyDeps species_ids param_ids rules external_dynamic)
      ((classifyCore species_ids param_ids rules external_dynamic).static_list.length + 1)
      (classifyCore species_ids param_ids rules external_dynamic).static_list [] param_ids
      (by intro x; simp)
      (by intro j hj _ _; simp at hj)
      hOK
  exact htopo i h u hu

theorem C6_witness :
    classifySortCompleted [] ["k1", "k2"] staticChainRules [] = true ∧
    ("V1" ∈ ["k1", "k2"] ∨
      "V1" ∈ (((classify_rules [] ["k1", "k2"] staticChainRules []).1).take 1).map Prod.fst) := by
  refine ⟨by decide, ?_⟩
  exact C6_static_topological_order [] ["k1", "k2"] [] staticChainRules
    (by decide) 1 (by decide) "V1" (by decide)

/-! ## C1: the division-safety post-pass and the printer guard -/

/-- A structural induction principle for `Expr` that hands the piecewise case
its branch components, obtained by strong induction on `sizeOf`. -/
theorem Expr.myInd (P : Expr → Prop)
    (hint : ∀ n, P (.intE n)) (hfloat : ∀ q, P (.floatE q)) (hsym : ∀ s, P (.sym s))
    (hadd : ∀ a b, P a → P b → P (.add a b))
    (hmul : ∀ a b, P a → P b → P (.mul a b))
    (hpow : ∀ a b, P a → P b → P (.pow a b))
    (hlog : ∀ a, P a → P (.log a))
    (hne : ∀ a b, P a → P b → P (.ne a b))
    (hT : P .boolT)
    (hpw : ∀ brs, (∀ vc ∈ brs, P vc.1 ∧ P vc.2) → P (.piecewise brs))
    (e : Expr) : P e := by
  have key : ∀ n (x : Expr), sizeOf x ≤ n → P x := by
    intro n
    induction n with
    | zero => intro x hx; cases x <;> simp_all <;> omega
    | succ n ih =>
      intro x hx
      cases x with
      | intE k => exact hint k
      | floatE q => exact hfloat q
      | sym s => exact hsym s
      | add a b =>
        refine hadd a b (ih a ?_) (ih b ?_) <;> simp at hx <;> omega
      | mul a b =>
        refine hmul a b (ih a ?_) (ih b ?_) <;> simp at hx <;> omega
      | pow a b =>
        refine hpow a b (ih a ?_) (ih b ?_) <;> simp at hx <;> omega
      | log a =>
        refine hlog a (ih a ?_) <;> simp at hx <;> omega
      | ne a b =>
        refine hne a b (ih a ?_) (ih b ?_) <;> simp at hx <;> omega
      | boolT => exact hT
      | piecewise brs =>
        refine hpw brs ?_
        intro vc hvc
        have h1 : sizeOf vc < sizeOf brs := List.sizeOf_lt_of_mem hvc
        have h2 : sizeOf brs < sizeOf (Expr.piecewise brs) := by simp
        obtain ⟨v, c⟩ := vc
        constructor
        · refine ih v ?_
          simp at h1; omega
        · refine ih c ?_
          simp at h1; omega
  exact key (sizeOf e) e (le_refl _)

theorem divisionSafeBrs_of_all (zs : List String) : ∀ brs : List (Expr × Expr),
    (∀ vc ∈ brs, divisionSafe zs vc.1 = true ∧ divisionSafe zs vc.2 = true) →
    divisionSafeBrs zs brs = true := by
  intro brs
  induction brs with
  | nil => intro _; rfl
  | cons hd tl ih =>
    intro h
    obtain ⟨v, c⟩ := hd
    have h1 := h (v, c) (List.mem_cons_self _ _)
    simp only [divisionSafeBrs]
    rw [h1.1, h1.2, ih fun vc hvc => h vc (List.mem_cons_of_mem _ hvc)]
    rfl

/-- Evaluating `divisionSafe` on a concrete guard
`Piecewise((b^e, Ne(b, 0)), (sentinel, True))` checks only base and
exponent. -/
theorem divisionSafe_guard (zs : List String) (b e : Expr) :
    divisionSafe zs (.piecewise [(.pow b e, .ne b (.intE 0)), (.floatE sentinel, .boolT)])
      = (divisionSafe zs b && divisionSafe zs e) := by
  have hc : b = b ∧ Expr.intE 0 = Expr.intE 0 ∧ sentinel = sentinel := ⟨rfl, rfl, rfl⟩
  rw [divisionSafe.eq_def]
  exact if_pos hc

theorem divisionSafe_piecewise (zs : List String) (brs : List (Expr × Expr))
    (h : ∀ vc ∈ brs, divisionSafe zs vc.1 = true ∧ divisionSafe zs vc.2 = true) :
    divisionSafe zs (.piecewise brs) = true := by
  rw [divisionSafe.eq_def]
  split
  next x a b heq => simp at heq
  next x a b heq => simp at heq
  next x b e heq => simp at heq
  next x a heq => simp at heq
  next x a b heq => simp at heq
  next x b e b2 z big heq =>
    have hbrs : brs = [(Expr.pow b e, Expr.ne b2 z), (Expr.floatE big, Expr.boolT)] :=
      Expr.piecewise.inj heq
    have hv := h (Expr.pow b e, Expr.ne b2 z) (by rw [hbrs]; exact List.mem_cons_self _ _)
    have hv1 : divisionSafe zs (Expr.pow b e) = true := hv.1
    have hv2 : divisionSafe zs (Expr.ne b2 z) = true := hv.2
    simp only [divisionSafe, Bool.and_eq_true] at hv1 hv2
    split
    · rw [hv1.1.2, hv1.2]; rfl
    · rw [hv1.1.1, hv1.1.2, hv1.2, hv2.1, hv2.2]; rfl
  next x brs2 hnospec heq =>
    rw [(Expr.piecewise.inj heq).symm]
    exact divisionSafeBrs_of_all zs brs h
  next => rfl

theorem replacePowsBrs_eq_map (zs : List String) : ∀ brs : List (Expr × Expr),
    replacePowsBrs zs brs = brs.map fun wc => (replacePows zs wc.1, replacePows zs wc.2) := by
  intro brs
  induction brs with
  | nil => rfl
  | cons hd tl ih =>
    obtain ⟨v, c⟩ := hd
    simp [replacePowsBrs, ih]

theorem replacePows_safe (zs : List String) (e : Expr) :
    divisionSafe zs (replacePows zs e) = true := by
  induction e using Expr.myInd with
  | hint n => rfl
  | hfloat q => rfl
  | hsym s => rfl
  | hT => rfl
  | hadd a b iha ihb => simp [replacePows, divisionSafe, iha, ihb]
  | hmul a b iha ihb => simp [replacePows, divisionSafe, iha, ihb]
  | hlog a iha => simp [replacePows, divisionSafe, iha]
  | hne a b iha ihb => simp [replacePows, divisionSafe, iha, ihb]
  | hpow b e ihb ihe =>
    simp only [replacePows]
    split
    · rw [safePow]
      split
      next hcond =>
        rw [divisionSafe_guard, ihb, ihe]
        rfl
      next hcond =>
        simp only [divisionSafe]
        rw [ihb, ihe]
        simp only [Bool.not_eq_true] at hcond
        rw [hcond]
        rfl
    · next hneg =>
        simp only [divisionSafe]
        rw [ihb, ihe]
        simp only [Bool.not_eq_true] at hneg
        have : (isNegNum (replacePows zs e) && unsafeBase zs (replacePows zs b)) = false := by
          rw [hneg]; rfl
        rw [this]
        rfl
  | hpw brs ih =>
    simp only [replacePows]
    rw [replacePowsBrs_eq_map]
    apply divisionSafe_piecewise
    intro vc hvc
    obtain ⟨wc, hwc, rfl⟩ := List.mem_map.mp hvc
    exact ⟨(ih wc hwc).1, (ih wc hwc).2⟩

theorem hasUnsafePow_add (zs : List String) (a b : Expr) :
    hasUnsafePow zs (.add a b) = (hasUnsafePow zs a || hasUnsafePow zs b) := by
  simp [hasUnsafePow, subexprs, List.any_append]

theorem hasUnsafePow_mul (zs : List String) (a b : Expr) :
    hasUnsafePow zs (.mul a b) = (hasUnsafePow zs a || hasUnsafePow zs b) := by
  simp [hasUnsafePow, subexprs, List.any_append]

theorem hasUnsafePow_pow (zs : List String) (b e : Expr) :
    hasUnsafePow zs (.pow b e)
      = ((isNegNum e && unsafeBase zs b) || (hasUnsafePow zs b || hasUnsafePow zs e)) := by
  simp [hasUnsafePow, subexprs, List.any_append]

theorem hasUnsafePow_log (zs : List String) (a : Expr) :
    hasUnsafePow zs (.log a) = hasUnsafePow zs a := by
  simp [hasUnsafePow, subexprs]

theorem hasUnsafePow_ne (zs : List String) (a b : Expr) :
    hasUnsafePow zs (.ne a b) = (hasUnsafePow zs a || hasUnsafePow zs b) := by
  simp [hasUnsafePow, subexprs, List.any_append]

theorem mem_subexprsBrs_of_mem (vc : Expr × Expr) : ∀ brs : List (Expr × Expr), vc ∈ brs →
    (∀ x ∈ subexprs vc.1, x ∈ subexprsBrs brs) ∧
    (∀ x ∈ subexprs vc.2, x ∈ subexprsBrs brs) := by
  intro brs
  induction brs with
  | nil => intro h; simp at h
  | cons hd tl ih =>
    intro hmem
    obtain ⟨v0, c0⟩ := hd
    rcases List.mem_cons.mp hmem with heq | htl
    · subst heq
      constructor <;> intro x hx <;> simp only [subexprsBrs, List.mem_append] <;> tauto
    · have hih := ih htl
      constructor <;> intro x hx <;> simp only [subexprsBrs, List.mem_append]
      · exact Or.inr (hih.1 x hx)
      · exact Or.inr (hih.2 x hx)

theorem divisionSafe_of_no_unsafe (zs : List String) (e : Expr) :
    hasUnsafePow zs e = false → divisionSafe zs e = true := by
  induction e using Expr.myInd with
  | hint n => intro _; rfl
  | hfloat q => intro _; rfl
  | hsym s => intro _; rfl
  | hT => intro _; rfl
  | hadd a b iha ihb =>
    intro h
    rw [hasUnsafePow_add, Bool.or_eq_false_iff] at h
    simp [divisionSafe, iha h.1, ihb h.2]
  | hmul a b iha ihb =>
    intro h
    rw [hasUnsafePow_mul, Bool.or_eq_false_iff] at h
    simp [divisionSafe, iha h.1, ihb h.2]
  | hlog a iha =>
    intro h
    rw [hasUnsafePow_log] at h
    simp [divisionSafe, iha h]
  | hne a b iha ihb =>
    intro h
    rw [hasUnsafePow_ne, Bool.or_eq_false_iff] at h
    simp [divisionSafe, iha h.1, ihb h.2]
  | hpow b e ihb ihe =>
    intro h
    rw [hasUnsafePow_pow, Bool.or_eq_false_iff, Bool.or_eq_false_iff] at h
    simp only [divisionSafe]
    rw [h.1, ihb h.2.1, ihe h.2.2]
    rfl
  | hpw brs ih =>
    intro h
    apply divisionSafe_piecewise
    intro vc hvc
    have hsub := mem_subexprsBrs_of_mem vc brs hvc
    rw [hasUnsafePow, List.any_eq_false] at h
    constructor
    · refine (ih vc hvc).1 ?_
      rw [hasUnsafePow, List.any_eq_false]
      intro x hx
      exact h x (by simp only [subexprs, List.mem_cons]; exact Or.inr (hsub.1 x hx))
    · refine (ih vc hvc).2 ?_
      rw [hasUnsafePow, List.any_eq_false]
      intro x hx
      exact h x (by simp only [subexprs, List.mem_cons]; exact Or.inr (hsub.2 x hx))

theorem make_division_safe_safe (zs : List String) (e : Expr)
    (hshape : isNegPowNode e = false) :
    divisionSafe zs (make_division_safe zs e) = true := by
  cases e
  case pow b ex =>
    have hneg : isNegNum ex = false := by simpa [isNegPowNode] using hshape
    show divisionSafe zs
      (if (isNegNum ex && unsafeBase zs b) = true then safePow zs b ex
       else replacePows zs (.pow b ex)) = true
    rw [if_neg (by rw [hneg]; simp)]
    exact replacePows_safe zs (.pow b ex)
  all_goals exact replacePows_safe zs _

theorem esd_go_length : ∀ (reps : List (String × Expr)) (zs : List String),
    (ensure_safe_divisions_go zs reps).length = reps.length := by
  intro reps
  induction reps with
  | nil => intro zs; rfl
  | cons hd tl ih =>
    intro zs
    obtain ⟨s, e⟩ := hd
    simp only [ensure_safe_divisions_go, List.length_cons, ih]

theorem esd_length (reps : List (String × Expr)) :
    (ensure_safe_divisions reps).length = reps.length :=
  esd_go_length reps []

theorem esd_go_getD : ∀ (reps : List (String × Expr)) (zs : List String) (i : Nat),
    i < reps.length →
    (ensure_safe_divisions_go zs reps).getD i ("", .boolT) =
      ((reps.getD i ("", .boolT)).1,
        if hasUnsafePow (esdZs zs (reps.take (i + 1))) (reps.getD i ("", .boolT)).2 then
          make_division_safe (esdZs zs (reps.take (i + 1))) (reps.getD i ("", .boolT)).2
        else (reps.getD i ("", .boolT)).2) := by
  intro reps
  induction reps with
  | nil => intro zs i hi; simp at hi
  | cons hd tl ih =>
    intro zs i hi
    obtain ⟨s, e⟩ := hd
    match i with
    | 0 =>
      simp only [ensure_safe_divisions_go, List.take_succ_cons, List.take_zero, esdZs,
        List.getD_cons_zero]
    | i + 1 =>
      have hlt : i < tl.length := by
        simp only [List.length_cons] at hi
        omega
      simp only [ensure_safe_divisions_go, List.take_succ_cons, esdZs, List.getD_cons_succ]
      exact ih _ i hlt

/-- **C1 (counterexample).** The safety pass does not guard every flagged
negative power: when a replacement expression is itself a negative power with
an unsafe base, `_make_division_safe` returns early and wraps only the
top-level power, leaving a flagged negative power nested inside the guarded
base unguarded (`divisionSafe` is false on the processed output even though
the input was flagged). -/
theorem C1_counterexample :
    esdZs [] [("x0", badRep)] = ["x0"] ∧
    hasUnsafePow ["x0"] badRep = true ∧
    divisionSafe ["x0"]
      ((ensure_safe_divisions [("x0", badRep)]).getD 0 ("", .boolT)).2 = false := by
  decide

/-- **C1 (amended).** The optimizer's safety post-pass preserves the length
and the temporary names of the CSE replacement list, and for every
replacement whose expression is not itself a literal-negative-exponent power
(the early-return special case of `_make_division_safe`, refuted above), the
processed expression is division-safe with respect to the accumulated
zero-capable set: every negative power with a zero-capable base occurs only
inside the guard `Piecewise((base^exp, Ne(base, 0)), (1e10, True))`.  The
printer renders every literal-negative-integer power whose base contains a
`Piecewise` as the guarded conditional, never as a bare `.powi` call. -/
theorem C1_flagged_negative_powers :
    (∀ (reps : List (String × Expr)) (i : Nat), i < reps.length →
      isNegPowNode (reps.getD i ("", .boolT)).2 = false →
      (ensure_safe_divisions reps).length = reps.length ∧
      ((ensure_safe_divisions reps).getD i ("", .boolT)).1 = (reps.getD i ("", .boolT)).1 ∧
      divisionSafe (esdZs [] (reps.take (i + 1)))
        ((ensure_safe_divisions reps).getD i ("", .boolT)).2 = true) ∧
    (∀ (b : Expr) (k : Int), k < 0 → containsPiecewise b = true →
      printE (.pow b (.intE k)) =
        "(if " ++ parenBase b ++ " != 0.0 \x7b " ++ parenBase b ++ ".powi("
          ++ toString k ++ ") \x7d else \x7b f64::INFINITY \x7d)") := by
  constructor
  · intro reps i hi hshape
    refine ⟨esd_length reps, ?_, ?_⟩
    · rw [ensure_safe_divisions, esd_go_getD reps [] i hi]
    · rw [ensure_safe_divisions, esd_go_getD reps [] i hi]
      dsimp only
      split
      · exact make_division_safe_safe _ _ hshape
      · next hfalse =>
          exact divisionSafe_of_no_unsafe _ _ (by simpa using hfalse)
  · intro b k hk hpw
    simp only [printE, parenBase]
    rw [if_pos]
    simp only [Bool.and_eq_true, decide_eq_true_eq]
    exact ⟨hk, hpw⟩

theorem C1_witness :
    divisionSafe (esdZs [] ([("x0", Expr.add (.pow Pz (.intE (-1))) (.sym "a"))].take 1))
      ((ensure_safe_divisions [("x0", Expr.add (.pow Pz (.intE (-1))) (.sym "a"))]).getD 0
        ("", .boolT)).2 = true ∧
    printE (.pow Pz (.intE (-1))) =
      "(if " ++ parenBase Pz ++ " != 0.0 \x7b " ++ parenBase Pz ++ ".powi("
        ++ toString (-1 : Int) ++ ") \x7d else \x7b f64::INFINITY \x7d)" :=
  ⟨(C1_flagged_negative_powers.1 [("x0", .add (.pow Pz (.intE (-1))) (.sym "a"))] 0
      (by decide) (by decide)).2.2,
   C1_flagged_negative_powers.2 Pz (-1) (by decide) (by decide)⟩

end WasmPK
